import Mathlib

set_option maxRecDepth 1000000
set_option maxHeartbeats 1000000

/-!
Verification of the summarization engine of the Stock repository
(`backend/api/summarize_service.py`).

The Python code is shallowly embedded over `Str := List Char`.  Python
strings become `Str`; Python string methods (`strip`, `split`, `replace`,
`find`, `rfind`, slicing, ...) are modelled by executable Lean functions
with the same semantics on the ASCII inputs the service processes.  The
external NLTK tokenizers (`sent_tokenize`, `word_tokenize`) and the NLTK
stopword list are external collaborators: they are passed as parameters,
with `none` modelling the `LookupError` raised when the NLTK data is
unavailable, in which case the source falls back to its own regex-based
tokenizers, which are embedded faithfully.  `TRANSFORMERS_AVAILABLE` is
modelled as `false` (the `transformers` import is optional and the spec
declares the extractive path canonical).  Python float comparisons on
ratio thresholds (0.2 / 0.5 / 0.6 / 0.7 / 1.25 of integer quantities)
are modelled by exact integer inequalities; at every comparison actually
performed the double rounding of the literal cannot flip the result
because the compared ratios are quotients of small integers.
-/

namespace Stock

/-- Python strings are modelled as lists of characters. -/
abbrev Str := List Char

/-- Shorthand to write a modelled Python string. -/
def S (s : String) : Str := s.data

/-- The characters Python `str.strip()` / `\s` treat as whitespace (ASCII). -/
def pyIsSpace (c : Char) : Bool :=
  c = ' ' || c = '\t' || c = '\n' || c = '\r' || c = '\x0b' || c = '\x0c'

/-- A regex `\w` word character (ASCII: letters, digits, underscore). -/
def isWordChar (c : Char) : Bool := c.isAlphanum || c = '_'

/-- A strict ASCII uppercase letter, regex class `[A-Z]`. -/
def isUpperAZ (c : Char) : Bool := 'A' ≤ c && c ≤ 'Z'

/-- Python `str.lower()` (ASCII). -/
def lowerS (s : Str) : Str := s.map Char.toLower

/-- Python `str.lstrip()`. -/
def stripLeft (s : Str) : Str := s.dropWhile pyIsSpace

/-- Python `str.rstrip()`. -/
def stripRight (s : Str) : Str := (s.reverse.dropWhile pyIsSpace).reverse

/-- Python `str.strip()`. -/
def pyStrip (s : Str) : Str := stripRight (stripLeft s)

/-- Python `sub in s` (substring containment). -/
def containsSub : Str → Str → Bool
  | [], sub => sub.isPrefixOf ([] : Str)
  | c :: rest, sub => sub.isPrefixOf (c :: rest) || containsSub rest sub

/-- Python `s.startswith(p)`. -/
def startsWithS (s p : Str) : Bool := p.isPrefixOf s

/-- Python `s.endswith(p)`. -/
def endsWithS (s p : Str) : Bool := p.isSuffixOf s

/-- Python `s.endswith((p1, p2, ...))`. -/
def endsWithAny (s : Str) (ps : List Str) : Bool := ps.any (endsWithS s)

/-- Python `s.endswith(('.', '!', '?'))`, the terminal-punctuation test
used throughout the service. -/
def endsPunct (s : Str) : Bool := endsWithAny s [S ".", S "!", S "?"]

/-- Python `s.split()`: split on whitespace runs, dropping empty pieces
(structural scan with the current word accumulated in reverse). -/
def splitWSGo : Str → Str → List Str
  | [], acc => if acc = [] then [] else [acc.reverse]
  | c :: rest, acc =>
    if pyIsSpace c then
      if acc = [] then splitWSGo rest [] else acc.reverse :: splitWSGo rest []
    else splitWSGo rest (c :: acc)

/-- Python `s.split()`. -/
def splitWS (s : Str) : List Str := splitWSGo s []

/-- Python `' '.join(l)`. -/
def joinSp : List Str → Str
  | [] => []
  | [x] => x
  | x :: rest => x ++ ' ' :: joinSp rest

/-- Python `s.split(sep)` for a one-character separator (the source only
splits on `'.'`): all pieces, empties kept. -/
def splitChar (sep : Char) : Str → List Str
  | [] => [[]]
  | c :: rest =>
    if c = sep then [] :: splitChar sep rest
    else
      match splitChar sep rest with
      | [] => [[c]]
      | p :: ps => (c :: p) :: ps

/-- Python `s.find(sub)` from position `from0`: smallest index `≥ from0`
where `sub` starts, `-1` if none. -/
def pyFindFrom (s sub : Str) (from0 : Nat) : Int :=
  go (s.drop from0) from0
where
  go : Str → Nat → Int
    | t, i =>
      if sub.isPrefixOf t then (i : Int)
      else
        match t with
        | [] => -1
        | _ :: rest => go rest (i + 1)

/-- Python `s.find(sub)`. -/
def pyFind (s sub : Str) : Int := pyFindFrom s sub 0

/-- Python `s.rfind(sub)`: LARGEST index where `sub` starts, `-1` if none. -/
def pyRfind (s sub : Str) : Int :=
  go s 0 (-1)
where
  go : Str → Nat → Int → Int
    | t, i, best =>
      let best := if sub.isPrefixOf t then (i : Int) else best
      match t with
      | [] => best
      | _ :: rest => go rest (i + 1) best

/-- Python `s.split(sep, 1)`: the part before the first occurrence of `sep`
and the part after it (the whole string and `[]` when absent). -/
def splitFirst (s sep : Str) : Str × Str :=
  let i := pyFind s sep
  if i < 0 then (s, [])
  else (s.take i.toNat, s.drop (i.toNat + sep.length))

/-- Python `s.replace(old, new)`: every non-overlapping occurrence, scanned
left to right.  (The source never calls `replace` with an empty `old`.)
The fuel argument only encodes termination: every step consumes at least
one character, so `s.length` fuel is never exhausted. -/
def pyReplaceGo (old new : Str) : Nat → Str → Str
  | _, [] => []
  | 0, s => s
  | fuel + 1, c :: rest =>
    if old.isPrefixOf (c :: rest) then
      new ++ pyReplaceGo old new fuel ((c :: rest).drop old.length)
    else
      c :: pyReplaceGo old new fuel rest

/-- Python `s.replace(old, new)`. -/
def pyReplace (s old new : Str) : Str :=
  if old = [] then s else pyReplaceGo old new s.length s

/-- Python `re.sub(r'\s+', ' ', s)`: collapse every whitespace run to a
single space.  `inRun` records whether the previous character was part of
an already-emitted whitespace run. -/
def collapseGo : Bool → Str → Str
  | _, [] => []
  | inRun, c :: rest =>
    if pyIsSpace c then
      if inRun then collapseGo true rest else ' ' :: collapseGo true rest
    else c :: collapseGo false rest

/-- Python `re.sub(r'\s+', ' ', s)`. -/
def collapseWS (s : Str) : Str := collapseGo false s

/-- Python `str.capitalize()`: first character uppercased, rest lowercased. -/
def pyCapitalize : Str → Str
  | [] => []
  | c :: rest => c.toUpper :: rest.map Char.toLower

/-- `re.findall(r'\b\w+\b', s)`: the maximal runs of word characters
(structural scan with the current run accumulated in reverse). -/
def wordsOfGo : Str → Str → List Str
  | [], acc => if acc = [] then [] else [acc.reverse]
  | c :: rest, acc =>
    if isWordChar c then wordsOfGo rest (c :: acc)
    else if acc = [] then wordsOfGo rest [] else acc.reverse :: wordsOfGo rest []

/-- `re.findall(r'\b\w+\b', s)`. -/
def wordsOf (s : Str) : List Str := wordsOfGo s []

/-- The distinct elements of a word list, first occurrences kept, in first
occurrence order: the model of a Python `set(...)` built by iterating the
list (the service only uses set size, membership, and intersection size,
all order-independent). -/
def dedupFirst : List Str → List Str
  | [] => []
  | w :: rest => w :: (dedupFirst rest).filter (fun x => x ≠ w)

/-- `set(re.findall(r'\b\w+\b', s))` as used for title and sentence word
sets (the argument is already lowercased at every call site). -/
def wordSetOf (s : Str) : List Str := dedupFirst (wordsOf s)

/-- `len(a & b)` for two Python sets modelled as deduplicated lists. -/
def interCount (a b : List Str) : Nat := (a.filter (fun w => b.contains w)).length


/-! ### A small regex engine

The boilerplate patterns of `clean_article_text` and the ticker pattern of
`enhance_title` all have the same restricted shape: a sequence of atoms
drawn from literal words, alternations of literal words, `\s+`, `\s*`,
lazy `.+?` / `.*?` (where `.` does not match a newline), greedy character
classes `[..]+`, and `\d{n}`.  `matchAtoms` reproduces Python's
backtracking semantics for such sequences: greedy atoms try longer
extents first, lazy atoms shorter extents first, alternatives in written
order, and the first overall success is the match Python reports. -/

inductive Atom where
  | lit (ci : Bool) (w : Str)
  | alt (ws : List Str)
  | wsPlus
  | wsStar
  | anyLazyStar
  | anyLazyPlus
  | clsPlus (p : Char → Bool)
  | digits (n : Nat)

/-- Literal prefix match, case-insensitively when `ci` is set. -/
def prefixCI : Bool → Str → Str → Bool
  | _, [], _ => true
  | _, _ :: _, [] => false
  | ci, c :: w, d :: s =>
    (if ci then c.toLower = d.toLower else c = d) && prefixCI ci w s

/-- Match a sequence of atoms against a prefix of `s`; `some r` returns the
suffix left over by the highest-priority (Python-first) match. -/
def matchAtoms : List Atom → Str → Option Str
  | [], s => some s
  | a :: as, s =>
    match a with
    | .lit ci w =>
      if prefixCI ci w s then matchAtoms as (s.drop w.length) else none
    | .alt ws =>
      ws.findSome? (fun w =>
        if prefixCI true w s then matchAtoms as (s.drop w.length) else none)
    | .wsPlus =>
      let k := (s.takeWhile pyIsSpace).length
      ((List.range k).reverse.map (· + 1)).findSome? (fun j => matchAtoms as (s.drop j))
    | .wsStar =>
      let k := (s.takeWhile pyIsSpace).length
      (List.range (k + 1)).reverse.findSome? (fun j => matchAtoms as (s.drop j))
    | .anyLazyStar =>
      let m := (s.takeWhile (fun c => c ≠ '\n')).length
      (List.range (m + 1)).findSome? (fun j => matchAtoms as (s.drop j))
    | .anyLazyPlus =>
      let m := (s.takeWhile (fun c => c ≠ '\n')).length
      ((List.range m).map (· + 1)).findSome? (fun j => matchAtoms as (s.drop j))
    | .clsPlus p =>
      let k := (s.takeWhile p).length
      ((List.range k).reverse.map (· + 1)).findSome? (fun j => matchAtoms as (s.drop j))
    | .digits n =>
      if (s.take n).length = n && (s.take n).all Char.isDigit then
        matchAtoms as (s.drop n)
      else none

/-- `re.sub(pattern, '', s)`: scan left to right, removing every
non-overlapping match.  (All patterns used match at least one character;
the length guard only documents that an empty match would advance.)  The
fuel argument only encodes termination: every step consumes at least one
character, so `s.length` fuel is never exhausted. -/
def subAllGo (atoms : List Atom) : Nat → Str → Str
  | _, [] => []
  | 0, s => s
  | fuel + 1, c :: rest =>
    match matchAtoms atoms (c :: rest) with
    | some r =>
      if r.length < rest.length + 1 then subAllGo atoms fuel r
      else c :: subAllGo atoms fuel rest
    | none => c :: subAllGo atoms fuel rest

/-- `re.sub(pattern, '', s)`. -/
def subAll (atoms : List Atom) (s : Str) : Str := subAllGo atoms s.length s

/-- The `boilerplate_patterns` catalogue of `clean_article_text`
(lines 337-369 of `summarize_service.py`), in source order, each compiled
to its atom sequence (all applied with `re.IGNORECASE`). -/
def boilerplatePatterns : List (List Atom) :=
  [ [Atom.alt [S "For more information", S "To learn more", S "For further details",
       S "Read more", S "Find out more", S "Click here for more"],
     Atom.anyLazyPlus,
     Atom.alt [S "website", S "site", S "page", S "URL"],
     Atom.anyLazyStar, Atom.lit true (S ".")],
    [Atom.lit true (S "Visit"), Atom.wsPlus, Atom.anyLazyPlus, Atom.wsPlus,
     Atom.lit true (S "for"), Atom.wsPlus, Atom.lit true (S "more"), Atom.wsPlus,
     Atom.anyLazyStar, Atom.lit true (S ".")],
    [Atom.lit true (S "Click"), Atom.wsPlus, Atom.lit true (S "here"), Atom.wsPlus,
     Atom.lit true (S "to"), Atom.wsPlus, Atom.anyLazyStar, Atom.lit true (S ".")],
    [Atom.lit true (S "Learn"), Atom.wsPlus, Atom.lit true (S "more"), Atom.wsPlus,
     Atom.lit true (S "at"), Atom.wsPlus, Atom.anyLazyStar, Atom.lit true (S ".")],
    [Atom.lit true (S "Find"), Atom.wsPlus, Atom.lit true (S "out"), Atom.wsPlus,
     Atom.lit true (S "more"), Atom.wsPlus, Atom.anyLazyStar, Atom.lit true (S ".")],
    [Atom.lit true (S "Learn"), Atom.wsPlus, Atom.lit true (S "more"), Atom.wsPlus,
     Atom.anyLazyStar, Atom.lit true (S ".")],
    [Atom.lit true (S "See"), Atom.wsPlus, Atom.lit true (S "more"), Atom.wsPlus,
     Atom.anyLazyStar, Atom.lit true (S ".")],
    [Atom.lit true (S "Read"), Atom.wsPlus, Atom.lit true (S "the"), Atom.wsPlus,
     Atom.lit true (S "full"), Atom.wsPlus, Atom.anyLazyStar, Atom.lit true (S ".")],
    [Atom.lit true (S "Follow"), Atom.wsPlus, Atom.lit true (S "this"), Atom.wsPlus,
     Atom.lit true (S "link"), Atom.wsPlus, Atom.anyLazyStar, Atom.lit true (S ".")],
    [Atom.lit true (S "Subscribe"), Atom.wsPlus, Atom.lit true (S "to"), Atom.wsPlus,
     Atom.lit true (S "our"), Atom.wsPlus, Atom.lit true (S "newsletter"),
     Atom.anyLazyStar, Atom.lit true (S ".")],
    [Atom.lit true (S "Sign"), Atom.wsPlus, Atom.lit true (S "up"), Atom.wsPlus,
     Atom.lit true (S "for"), Atom.wsPlus, Atom.lit true (S "our"), Atom.wsPlus,
     Atom.anyLazyStar, Atom.lit true (S ".")],
    [Atom.lit true (S "Get"), Atom.wsPlus, Atom.lit true (S "updates"), Atom.wsPlus,
     Atom.anyLazyStar, Atom.lit true (S ".")],
    [Atom.lit true (S "©"), Atom.wsStar, Atom.digits 4,
     Atom.anyLazyStar, Atom.lit true (S "."), Atom.wsStar],
    [Atom.lit true (S "Copyright"), Atom.wsStar, Atom.lit true (S "©"),
     Atom.anyLazyStar, Atom.lit true (S "."), Atom.wsStar],
    [Atom.lit true (S "Follow"), Atom.wsPlus, Atom.lit true (S "us"), Atom.wsPlus,
     Atom.lit true (S "on"), Atom.wsPlus, Atom.anyLazyStar, Atom.lit true (S ".")],
    [Atom.lit true (S "Like"), Atom.wsPlus, Atom.lit true (S "us"), Atom.wsPlus,
     Atom.lit true (S "on"), Atom.wsPlus, Atom.anyLazyStar, Atom.lit true (S ".")],
    [Atom.lit true (S "Share"), Atom.wsPlus, Atom.lit true (S "this"), Atom.wsPlus,
     Atom.anyLazyStar, Atom.lit true (S ".")],
    [Atom.lit true (S "The"), Atom.wsPlus, Atom.lit true (S "content"), Atom.wsPlus,
     Atom.lit true (S "is"), Atom.wsPlus, Atom.lit true (S "provided"), Atom.wsPlus,
     Atom.lit true (S "for"), Atom.wsPlus, Atom.lit true (S "information"), Atom.wsPlus,
     Atom.lit true (S "purposes"), Atom.wsPlus, Atom.lit true (S "only"),
     Atom.anyLazyStar, Atom.lit true (S ".")],
    [Atom.lit true (S "All"), Atom.wsPlus, Atom.lit true (S "rights"), Atom.wsPlus,
     Atom.lit true (S "reserved"), Atom.anyLazyStar, Atom.lit true (S ".")],
    [Atom.lit true (S "This"), Atom.wsPlus, Atom.lit true (S "article"), Atom.wsPlus,
     Atom.lit true (S "was"), Atom.wsPlus, Atom.lit true (S "originally"), Atom.wsPlus,
     Atom.lit true (S "published"), Atom.wsPlus, Atom.anyLazyStar, Atom.lit true (S ".")] ]

/-- One pass of all boilerplate substitutions, in catalogue order. -/
def boilerStrip (text : Str) : Str :=
  boilerplatePatterns.foldl (fun t p => subAll p t) text

/-- `clean_article_text` (lines 323-378): remove the boilerplate catalogue,
then collapse whitespace runs and strip. -/
def cleanArticleText (text : Str) : Str :=
  if text = [] then []
  else pyStrip (collapseWS (boilerStrip text))


/-! ### `enhance_title` (lines 381-552) -/

/-- The ticker pattern `\s*\([A-Z]+:[A-Z]+\)` (case-sensitive). -/
def tickerAtoms : List Atom :=
  [Atom.wsStar, Atom.lit false (S "("), Atom.clsPlus isUpperAZ,
   Atom.lit false (S ":"), Atom.clsPlus isUpperAZ, Atom.lit false (S ")")]

/-- Step 1: `re.sub(r'\s*\([A-Z]+:[A-Z]+\)', '', title)`. -/
def stripTickers (t : Str) : Str := subAll tickerAtoms t

/-- The `redundant_prefixes` catalogue (lines 404-409), in source order. -/
def redundantPrefixes : List Str :=
  [S "BREAKING: ", S "Breaking: ", S "UPDATE: ", S "Update: ",
   S "EXCLUSIVE: ", S "Exclusive: ", S "REPORT: ", S "Report: ",
   S "WATCH: ", S "Watch: ", S "JUST IN: ", S "Just In: ",
   S "VIDEO: ", S "Video: ", S "ANALYSIS: ", S "Analysis: ",
   S "FEATURED: ", S "Featured: ", S "ALERT: ", S "Alert: ",
   S "TRENDING: ", S "Trending: "]

/-- Step 2: strip the first matching redundant label (the loop breaks after
the first hit). -/
def dropLabelOnce (t : Str) : Str :=
  match redundantPrefixes.find? (fun p => startsWithS t p) with
  | some p => t.drop p.length
  | none => t

/-- `re.sub(r'\.{3,}$', '', s)`: remove a trailing run of three or more
periods. -/
def dropDots3 (s : Str) : Str :=
  let k := (s.reverse.takeWhile (fun c => c = '.')).length
  if 3 ≤ k then s.take (s.length - k) else s

/-- `re.sub(r'\s*\.\.\.$', '', s)`: remove a trailing ellipsis and the
whitespace run before it. -/
def dropEllipsis (s : Str) : Str :=
  if endsWithS s (S "...") then stripRight (s.take (s.length - 3)) else s

/-- The `filler_phrases` catalogue (lines 424-430), in source order. -/
def fillerPhrases : List Str :=
  [S " according to sources", S " according to reports", S " according to insiders",
   S " sources say", S " reports indicate", S " experts say", S " analysts believe",
   S ", experts say", S ", analysts say", S ", sources say", S ", reports indicate",
   S " - report", S " - sources", S " - analysts", S " - insiders", S " report claims",
   S " analysts report", S " sources claim", S ", report says", S ", report claims"]

/-- Step 5: for each filler phrase contained in the lowercased title,
replace the phrase and its `str.capitalize()` variant by the empty string
(the replacements themselves are case-sensitive, as in the source). -/
def fillerStep (t : Str) : Str :=
  fillerPhrases.foldl (fun t ph =>
    if containsSub (lowerS t) ph then
      pyReplace (pyReplace t ph []) (pyCapitalize ph) []
    else t) t

/-- Step 6: `if title and title[0].islower(): title[0].upper() + title[1:]`. -/
def capFirst : Str → Str
  | [] => []
  | c :: rest => if c.isLower then c.toUpper :: rest else c :: rest

/-- The `common_companies` catalogue (lines 443-444). -/
def commonCompanies : List Str :=
  [S "Amazon", S "Amazon.com", S "Apple", S "Microsoft", S "Google", S "Meta",
   S "Facebook", S "Tesla", S "Nvidia", S "Broadcom", S "Alphabet"]

/-- Match the interpolated company name as Python does when it is pasted
into a regex: each character is a literal except `.`, which is the regex
any-character (this matters for `Amazon.com`).  Returns the remaining
suffix on success. -/
def compMatch : Str → Str → Option Str
  | [], s => some s
  | _ :: _, [] => none
  | c :: cr, d :: s =>
    if c = '.' then (if d = '\n' then none else compMatch cr s)
    else if c.toLower = d.toLower then compMatch cr s
    else none

/-- Does `(\s+\w+){lo,hi}$` match the whole of `u`?  The whitespace and
word runs are forced to be maximal (backtracking cannot help since the
classes are disjoint and the match is anchored), so a three-phase state
scan decides the match: phase 0 = at the start, phase 1 = inside a
whitespace run, phase 2 = inside a word run; `k` counts completed blocks
(incremented when a word run begins). -/
def tailBlocksGo (lo hi : Nat) : Str → Nat → Nat → Bool
  | [], k, phase => (phase = 2 || (phase = 0 && k = 0)) && lo ≤ k && k ≤ hi
  | c :: rest, k, phase =>
    if phase = 0 then
      if pyIsSpace c then tailBlocksGo lo hi rest k 1 else false
    else if phase = 1 then
      if pyIsSpace c then tailBlocksGo lo hi rest k 1
      else if isWordChar c then tailBlocksGo lo hi rest (k + 1) 2
      else false
    else
      if isWordChar c then tailBlocksGo lo hi rest k 2
      else if pyIsSpace c then tailBlocksGo lo hi rest k 1
      else false

/-- Does `(\s+\w+){lo,hi}$` match the whole of `u`? -/
def tailBlocks (lo hi : Nat) (u : Str) : Bool := tailBlocksGo lo hi u 0 0

/-- `re.search(rf'{company}(\s+\w+){{1,3}}$', titleLower)` as a Boolean. -/
def searchTailB (comp : Str) : Str → Bool
  | [] => (match compMatch comp ([] : Str) with
           | some u => tailBlocks 1 3 u
           | none => false)
  | c :: rest =>
    (match compMatch comp (c :: rest) with
     | some u => tailBlocks 1 3 u
     | none => false) || searchTailB comp rest

/-- Does `(,?\s+|-\s+)({company}(\s+\w+){{0,3}})$` match starting exactly
at this suffix? -/
def sepCompTailAt (comp : Str) (t : Str) : Bool :=
  let after := fun (r : Str) =>
    match r with
    | [] => false
    | d :: _ =>
      pyIsSpace d &&
        (match compMatch comp (r.dropWhile pyIsSpace) with
         | some u => tailBlocks 0 3 u
         | none => false)
  match t with
  | [] => false
  | c :: rest => (c = ',' && after rest) || after t || (c = '-' && after rest)

/-- `end_match.start()`: the leftmost index at which the separator+company
tail pattern matches (through to the end of the string). -/
def findEndStart (comp : Str) : Str → Nat → Option Nat
  | [], _ => none
  | c :: rest, i =>
    if sepCompTailAt comp (c :: rest) then some i
    else findEndStart comp rest (i + 1)

/-- `re.sub(r'[,\s-]+\.$', '.', t)`: collapse a trailing run of commas,
whitespace and dashes before the final period. -/
def tailCleanDot (t : Str) : Str :=
  if endsWithS t (S ".") then
    let u := t.take (t.length - 1)
    let v := (u.reverse.dropWhile (fun c => c = ',' || pyIsSpace c || c = '-')).reverse
    if v.length < u.length then v ++ S "." else t
  else t

/-- One iteration of the redundant-company loop (lines 446-467). -/
def companyOnce (title : Str) (company : Str) : Str :=
  let compL := lowerS company
  let titleL := lowerS title
  if startsWithS titleL compL &&
      (endsWithS titleL compL || searchTailB compL titleL) then
    match findEndStart compL titleL 0 with
    | some i =>
      let t1 := title.take i
      let t2 := if !endsPunct t1 then t1 ++ S "." else t1
      tailCleanDot t2
    | none => title
  else title

/-- Steps 1-7 of `enhance_title`: everything before the length check at
line 470 (ticker strip, label strip, ellipsis cleanup, whitespace
normalization, filler removal, capitalization, redundant-company removal). -/
def normalizeTitle (title : Str) : Str :=
  let t := stripTickers title
  let t := dropLabelOnce t
  let t := dropDots3 (pyStrip t)
  let t := dropEllipsis t
  let t := joinSp (splitWS t)
  let t := fillerStep t
  let t := capFirst t
  commonCompanies.foldl companyOnce t

/-- The verbs recognized before a colon (line 486). -/
def sayVerbs : List Str :=
  [S "says", S "states", S "reports", S "announces", S "confirms", S "reveals"]

/-- Step 7a (lines 476-495): the colon branch.  `Except.error` models the
`IndexError` from `parts[0].split()[-1]` on a title starting with a colon,
which the enclosing `try` turns into a jump to the final fallbacks;
`ok none` is falling through to the dash branch. -/
def colonStep (t : Str) (mx : Nat) : Except Unit (Option Str) :=
  if containsSub t (S ": ") then
    let parts := splitFirst t (S ": ")
    let p0 := parts.1
    let p1 := parts.2
    if p1.length > 25 && p1.count ' ' ≥ 3 then
      if (match p1 with | [] => false | c :: _ => c.isUpper) &&
          endsWithAny p1 [S ".", S "!", S "?", S "\""] then
        Except.ok (some p1)
      else
        match (splitWS p0).getLast? with
        | none => Except.error ()
        | some lastw =>
          let firstWord := lowerS lastw
          if sayVerbs.contains firstWord then
            let companyPart := joinSp (splitWS p0).dropLast
            if companyPart.length > 0 then
              let combined := companyPart ++ S " " ++ firstWord ++ S ": " ++ p1
              if combined.length ≤ mx then Except.ok (some combined)
              else Except.ok (some p1)
            else Except.ok (some p1)
          else Except.ok (some p1)
    else if p0.length > 25 && p0.count ' ' ≥ 3 then Except.ok (some p0)
    else Except.ok none
  else Except.ok none

/-- The dash separators of step 7b, in loop order. -/
def dashSeps : List Str := [S " - ", S " – ", S " — "]

/-- Step 7b (lines 498-505): split on the first contained dash separator;
keep the first part if substantial, else the second if substantial, else
try the next separator. -/
def dashStep (t : Str) : Option Str :=
  go dashSeps
where
  go : List Str → Option Str
    | [] => none
    | sep :: rest =>
      if containsSub t sep then
        let parts := splitFirst t sep
        if parts.1.length ≥ 30 && parts.1.count ' ' ≥ 3 then some parts.1
        else if parts.2.length ≥ 30 && parts.2.count ' ' ≥ 3 then some parts.2
        else go rest
      else go rest

/-- End positions of the non-overlapping occurrences of a non-empty `sub`,
scanned left to right as `re.finditer` does.  The fuel argument only
encodes termination: every step consumes at least one character. -/
def occEndsGo (sub : Str) : Nat → Str → Nat → List Nat
  | _, [], _ => []
  | 0, _, _ => []
  | fuel + 1, c :: rest, i =>
    if sub.isPrefixOf (c :: rest) then
      (i + sub.length) :: occEndsGo sub fuel ((c :: rest).drop sub.length) (i + sub.length)
    else occEndsGo sub fuel rest (i + 1)

/-- End positions of the non-overlapping occurrences of `sub` in `s`. -/
def occEndsNO (sub : Str) (s : Str) : List Nat :=
  if sub = [] then [] else occEndsGo sub s.length s 0

/-- End positions of matches of `(?<=[.!?]) `: single spaces preceded by
terminal punctuation. -/
def punctSpaceEnds (s : Str) : List Nat :=
  (List.range s.length).filterMap (fun i =>
    match s.get? i with
    | some c =>
      if c = ' ' then
        match i with
        | 0 => none
        | j + 1 =>
          match s.get? j with
          | some d => if d = '.' || d = '!' || d = '?' then some (i + 1) else none
          | none => none
      else none
    | none => none)

/-- The literal break-point patterns of step 7c, in source order. -/
def breakPats : List Str := [S ", ", S "; ", S " but ", S " and ", S " as ", S " due to "]

/-- All break points collected over the truncated title. -/
def breakPointsOf (sh : Str) : List Nat :=
  punctSpaceEnds sh ++ (breakPats.map (fun p => occEndsNO p sh)).flatten

/-- `break_points.sort(reverse=True)` on natural numbers. -/
def sortDescNat (l : List Nat) : List Nat :=
  l.foldr insertDesc []
where
  insertDesc (a : Nat) : List Nat → List Nat
    | [] => [a]
    | b :: rest => if b ≤ a then a :: b :: rest else b :: insertDesc a rest

/-- The break-point loop (lines 518-529): the first point, in descending
order, that keeps at least 65% of `maxLength` and whose candidate keeps at
least 70% of `maxLength` and is not a bare prefix of the original title.
The 0.65/0.7 float thresholds are modelled exactly. -/
def findBreak (t original : Str) (mx : Nat) : List Nat → Option Str
  | [] => none
  | point :: rest =>
    if 20 * point > 13 * mx then
      let c0 := pyStrip (t.take point)
      let candidate := if !endsPunct c0 then c0 ++ S "." else c0
      if 10 * candidate.length ≥ 7 * mx && candidate ≠ original.take candidate.length then
        some candidate
      else findBreak t original mx rest
    else findBreak t original mx rest

/-- Step 7c (lines 507-538): break points, then the last-whitespace cut
keeping at least 80% of `maxLength`. -/
def breakStep (t original : Str) (mx : Nat) : Option Str :=
  if t.length > mx then
    let sh := t.take (mx - 1)
    match findBreak t original mx (sortDescNat (breakPointsOf sh)) with
    | some c => some c
    | none =>
      let lastSpace := pyRfind sh (S " ")
      if 5 * lastSpace > 4 * (mx : Int) then
        let s2 := t.take lastSpace.toNat
        some (if !endsPunct s2 then s2 ++ S "." else s2)
      else none
  else none

/-- The two final fallbacks (lines 543-552): keep the original when at most
25% over target, else hard-truncate at `maxLength - 3` at a word boundary
and append an ellipsis. -/
def fallbackTitle (t original : Str) (mx : Nat) : Str :=
  if 4 * original.length ≤ 5 * mx then original
  else
    let sh := t.take (mx - 3)
    let lastSpace := pyRfind sh (S " ")
    if lastSpace > 0 then sh.take lastSpace.toNat ++ S "..."
    else sh ++ S "..."

/-- `enhance_title` (lines 381-552).  `Except.error` from the colon branch
models the caught exception: it skips the remaining shortening attempts
and goes straight to the final fallbacks. -/
def enhanceTitle (title : Str) (mx : Nat) : Str :=
  if title = [] then title
  else
    let original := title
    let t := normalizeTitle title
    if t.length ≤ mx then t
    else
      match colonStep t mx with
      | Except.ok (some r) => r
      | Except.ok none =>
        (match dashStep t with
         | some r => r
         | none =>
           match breakStep t original mx with
           | some r => r
           | none => fallbackTitle t original mx)
      | Except.error _ => fallbackTitle t original mx


/-! ### Stable sorting (Python `sorted(..., reverse=True)` / `list.sort()`)

Python's Timsort is stable; `sorted(l, key=key, reverse=True)` is therefore
extensionally the stable descending insertion sort below (an element moves
before exactly those earlier elements whose key is strictly smaller). -/

/-- Insert `a` (originally earlier than everything in `l`) into the
descending-sorted `l`, before every element of equal or smaller key. -/
def insertDescBy {α : Type} (key : α → Int) (a : α) : List α → List α
  | [] => [a]
  | b :: l => if key b ≤ key a then a :: b :: l else b :: insertDescBy key a l

/-- Stable sort, descending by `key`: Python `sorted(l, key=key, reverse=True)`. -/
def stableSortDescBy {α : Type} (key : α → Int) : List α → List α
  | [] => []
  | a :: l => insertDescBy key a (stableSortDescBy key l)

/-- `list.sort()` on naturals (ascending; the sorted lists hold distinct
indices, so stability is moot). -/
def sortAscNat (l : List Nat) : List Nat := l.foldr insertAsc []
where
  insertAsc (a : Nat) : List Nat → List Nat
    | [] => [a]
    | b :: rest => if a ≤ b then a :: b :: rest else b :: insertAsc a rest

/-- Python `min(l, key=key)`: the first element with minimal key. -/
def minByFirst (key : Nat → Int) : List Nat → Option Nat
  | [] => none
  | x :: xs => some (xs.foldl (fun m y => if key y < key m then y else m) x)

/-! ### `extract_keywords` (lines 39-80) -/

/-- `re.sub(r'[^\w\s]', '', s)`: keep only word and whitespace characters. -/
def stripNonWord (s : Str) : Str := s.filter (fun c => isWordChar c || pyIsSpace c)

/-- The basic stopword fallback set (lines 66-69), used when the NLTK
stopword list is unavailable. -/
def basicStopwords : List Str :=
  [S "a", S "an", S "the", S "and", S "or", S "but", S "if", S "because", S "as",
   S "what", S "when", S "where", S "how", S "who", S "which", S "this", S "that",
   S "to", S "in", S "is", S "are", S "was", S "were", S "be", S "been", S "being",
   S "have", S "has", S "had", S "do", S "does", S "did", S "of", S "for", S "with"]

/-- One counting step of `FreqDist(...)` (a `collections.Counter`): a dict
keeps its keys in insertion order, so a new word is appended and an existing
word is bumped in place. -/
def bumpCount (acc : List (Str × Nat)) (w : Str) : List (Str × Nat) :=
  if acc.any (fun p => p.1 = w) then
    acc.map (fun p => if p.1 = w then (p.1, p.2 + 1) else p)
  else acc ++ [(w, 1)]

/-- `FreqDist(l)`: word/count pairs in first-occurrence order. -/
def countsList (l : List Str) : List (Str × Nat) := l.foldl bumpCount []

/-- `FreqDist.most_common(n)` (Counter semantics): counts descending,
ties in first-occurrence order (stable sort), first `n`. -/
def mostCommon (l : List Str) (n : Nat) : List (Str × Nat) :=
  (stableSortDescBy (fun p => (p.2 : Int)) (countsList l)).take n

/-- `extract_keywords` (lines 39-80).  `wordTok` is NLTK `word_tokenize`
(`none` = `LookupError`, falling back to `str.split()`); `stopW` is the
NLTK stopword list (`none` = unavailable, falling back to the basic set).
The outer `except` of the source is unreachable here: with the two inner
fallbacks in place no modelled operation can raise. -/
def extractKeywords (wordTok : Str → Option (List Str)) (stopW : Option (List Str))
    (text : Str) (numKeywords : Nat) : List Str :=
  let text := stripNonWord (lowerS text)
  let words := match wordTok text with
    | some ws => ws
    | none => splitWS text
  let stopWords := match stopW with
    | some l => l
    | none => basicStopwords
  let filtered := words.filter (fun w => !stopWords.contains w && w.length > 2)
  (mostCommon filtered numKeywords).map Prod.fst

/-! ### Sentence tokenization (lines 82-139) -/

/-- `re.split(r'(?<=[.!?])\s+(?=[A-Z])', text)`: cut at every whitespace
run that follows terminal punctuation and precedes an ASCII capital.  The
greedy `\s+` must reach the capital (whitespace is never `[A-Z]`), and no
match can start inside a run (the lookbehind would see whitespace), so the
scan below is exactly Python's. -/
def splitSentGo : Nat → Str → Str → List Str
  | _, [], acc => [acc.reverse]
  | 0, s, acc => [acc.reverse ++ s]
  | fuel + 1, c :: rest, acc =>
    if pyIsSpace c &&
        (match acc with
         | p :: _ => p = '.' || p = '!' || p = '?'
         | [] => false) &&
        (match rest.dropWhile pyIsSpace with
         | d :: _ => isUpperAZ d
         | [] => false) then
      acc.reverse :: splitSentGo fuel (rest.dropWhile pyIsSpace) []
    else splitSentGo fuel rest (c :: acc)

def splitSentRe (s : Str) : List Str := splitSentGo s.length s []

/-- `simple_sentence_tokenize` (lines 82-95). -/
def simpleSentenceTokenize (text : Str) : List Str :=
  (splitSentRe text).filterMap (fun s =>
    let st := pyStrip s
    if st ≠ [] && st.length > 10 then some st else none)

/-- Index of the last newline of a whitespace run, if any. -/
def lastNewline (run : Str) : Option Nat :=
  match run.reverse.findIdx? (fun c => c = '\n') with
  | some j => some (run.length - 1 - j)
  | none => none

/-- `re.split(r'\n\s*\n', text)`: the delimiter is a newline, then a
greedy whitespace run, then a final newline (the last newline of the
contiguous whitespace run). -/
def paraSplitGo : Nat → Str → Str → List Str
  | _, [], acc => [acc.reverse]
  | 0, s, acc => [acc.reverse ++ s]
  | fuel + 1, c :: rest, acc =>
    if c = '\n' then
      match lastNewline (rest.takeWhile pyIsSpace) with
      | some p => acc.reverse :: paraSplitGo fuel (rest.drop (p + 1)) []
      | none => paraSplitGo fuel rest (c :: acc)
    else paraSplitGo fuel rest (c :: acc)

def paraSplit (s : Str) : List Str := paraSplitGo s.length s []

/-- NLTK `sent_tokenize` with the `LookupError` fallback of lines 112-117. -/
def sentTokOr (sentTok : Str → Option (List Str)) (text : Str) : List Str :=
  match sentTok text with
  | some s => s
  | none => simpleSentenceTokenize text

/-- The sentence cascade of `extract_important_sentences` (lines 112-138):
primary tokenization, the paragraph retry when fewer than 3 sentences came
out of a text longer than 200 characters, and the final period-split. -/
def sentencesOf (sentTok : Str → Option (List Str)) (text : Str) : List Str :=
  let sentences := sentTokOr sentTok text
  let sentences :=
    if sentences.length < 3 && text.length > 200 then
      ((paraSplit text).map (fun para => sentTokOr sentTok para)).flatten
    else sentences
  if sentences = [] && text ≠ [] then
    (splitChar '.' text).filterMap (fun s =>
      if (pyStrip s).length > 10 then some (pyStrip s ++ S ".") else none)
  else sentences

/-! ### Sentence scoring and selection (lines 140-234) -/

/-- `re.search(r'\d+%|[$€£¥]\d+|\d+\.\d+', s)` as a Boolean: a match of the
first alternative exists iff some digit is followed by `%` (its run's last
digit), of the second iff a currency sign is followed by a digit, of the
third iff a digit, a period and a digit are adjacent. -/
def hasNumeric (s : Str) : Bool :=
  (List.range s.length).any (fun i =>
    let dig := fun (o : Option Char) => match o with
      | some c => c.isDigit
      | none => false
    let eqc := fun (o : Option Char) (c : Char) => o = some c
    (dig (s.get? i) && eqc (s.get? (i + 1)) '%') ||
    ((eqc (s.get? i) '$' || eqc (s.get? i) '€' || eqc (s.get? i) '£' ||
      eqc (s.get? i) '¥') && dig (s.get? (i + 1))) ||
    (dig (s.get? i) && eqc (s.get? (i + 1)) '.' && dig (s.get? (i + 2))))

/-- The scores dict `sentence_scores = defaultdict(int)`: an association
list in key-insertion order.  `dictAdd` is `sentence_scores[i] += v` (a
missing key is created with value 0). -/
abbrev ScoreDict := List (Nat × Int)

/-- `sentence_scores[i] += v`. -/
def dictAdd (d : ScoreDict) (i : Nat) (v : Int) : ScoreDict :=
  if d.any (fun p => p.1 = i) then
    d.map (fun p => if p.1 = i then (p.1, p.2 + v) else p)
  else d ++ [(i, v)]

/-- The title-overlap rule (lines 152-161).  The float thresholds
0.7/0.5/0.2 compare `inter/tc`; they are modelled exactly (the compared
ratios have small denominators, so the double rounding of the float
literals cannot flip any comparison). -/
def overlapStage (titleWords sentenceWords : List Str) (d : ScoreDict) (i : Nat) :
    ScoreDict :=
  if titleWords ≠ [] then
    let inter := interCount sentenceWords titleWords
    let tc := titleWords.length
    if 10 * inter > 7 * tc then dictAdd d i (-5)
    else if 2 * inter > tc then dictAdd d i (-3)
    else if 5 * inter < tc then dictAdd d i 2
    else d
  else d

/-- The keyword rule (lines 163-167): rank-weighted bonus for every keyword
occurring in the lowercased sentence. -/
def keywordStage (keywords : List Str) (cleanSentence : Str) (d : ScoreDict)
    (i : Nat) : ScoreDict :=
  (keywords.enum).foldl (fun d p =>
    if containsSub cleanSentence p.2 then
      dictAdd d i ((keywords.length : Int) - (p.1 : Int))
    else d) d

/-- The position rule (lines 169-177). -/
def positionStage (n : Nat) (d : ScoreDict) (i : Nat) : ScoreDict :=
  if i = 0 then dictAdd d i 5
  else if i = 1 then dictAdd d i 3
  else if i < n / 3 then dictAdd d i 2
  else if i > n * 2 / 3 then dictAdd d i 1
  else d

/-- The length rule (lines 179-186). -/
def lengthStage (wc : Nat) (d : ScoreDict) (i : Nat) : ScoreDict :=
  if 10 ≤ wc && wc ≤ 25 then dictAdd d i 2
  else if wc < 5 then dictAdd d i (-2)
  else if wc > 40 then dictAdd d i (-1)
  else d

/-- The numeric-content rule (lines 188-190). -/
def numericStage (sentence : Str) (d : ScoreDict) (i : Nat) : ScoreDict :=
  if hasNumeric sentence then dictAdd d i 2 else d

/-- One iteration of the scoring loop (lines 147-190) for sentence `i` of
`n`: the five rules in source order, each updating the dict exactly as the
source does. -/
def scoreBlock (n : Nat) (keywords : List Str) (titleWords : List Str)
    (d : ScoreDict) (i : Nat) (sentence : Str) : ScoreDict :=
  let cleanSentence := lowerS sentence
  let sentenceWords := wordSetOf cleanSentence
  numericStage sentence
    (lengthStage (splitWS sentence).length
      (positionStage n
        (keywordStage keywords cleanSentence
          (overlapStage titleWords sentenceWords d i) i) i) i) i

/-- The whole scoring loop: `sentence_scores` after lines 144-190. -/
def sentenceScores (sentences keywords titleWords : List Str) : ScoreDict :=
  (sentences.enum).foldl
    (fun d p => scoreBlock sentences.length keywords titleWords d p.1 p.2) []

/-- Sum of two optional contributions: `none` means "no rule fired yet"
(no dict entry), `some v` a fired total of `v`. -/
def optAdd : Option Int → Option Int → Option Int
  | none, o => o
  | some a, none => some a
  | some a, some b => some (a + b)

/-- The dict fragment a single sentence contributes. -/
def optEntry (i : Nat) : Option Int → ScoreDict
  | some v => [(i, v)]
  | none => []

/-- The pure per-sentence score: the same five rules, accumulated as an
optional total instead of dict updates.  `scoreEntry … = none` exactly when
no rule fires, i.e. when the sentence never receives a dict entry. -/
def scoreEntry (n : Nat) (keywords titleWords : List Str) (i : Nat)
    (sentence : Str) : Option Int :=
  let cleanSentence := lowerS sentence
  let sentenceWords := wordSetOf cleanSentence
  let o : Option Int :=
    if titleWords ≠ [] then
      let inter := interCount sentenceWords titleWords
      let tc := titleWords.length
      if 10 * inter > 7 * tc then some (-5)
      else if 2 * inter > tc then some (-3)
      else if 5 * inter < tc then some 2
      else none
    else none
  let o := (keywords.enum).foldl (fun o p =>
    if containsSub cleanSentence p.2 then
      optAdd o (some ((keywords.length : Int) - (p.1 : Int)))
    else o) o
  let o := optAdd o
    (if i = 0 then some 5
     else if i = 1 then some 3
     else if i < n / 3 then some 2
     else if i > n * 2 / 3 then some 1
     else none)
  let wc := (splitWS sentence).length
  let o := optAdd o
    (if 10 ≤ wc && wc ≤ 25 then some 2
     else if wc < 5 then some (-2)
     else if wc > 40 then some (-1)
     else none)
  optAdd o (if hasNumeric sentence then some 2 else none)

/-- `sentence_scores[idx]` (only ever evaluated at present keys). -/
def scoreAt (d : ScoreDict) (i : Nat) : Int :=
  match d.lookup i with
  | some v => v
  | none => 0

/-- Lines 193-197: the keys of the dict (in insertion order), stably
sorted by score descending, first `max_sentences` kept. -/
def topIndices (d : ScoreDict) (maxSentences : Nat) : List Nat :=
  (stableSortDescBy (scoreAt d) (d.map Prod.fst)).take maxSentences

/-- Lines 199-214: the first-sentence override and the final ascending
sort.  `Except.error` models the `ValueError` of `min([])`, reachable only
with `max_sentences = 0`; the enclosing `try` would divert it to the
fallback. -/
def selectIndices (sentences titleWords : List Str) (d : ScoreDict)
    (maxSentences : Nat) : Except Unit (List Nat) :=
  let top := topIndices d maxSentences
  let withFirst : Except Unit (List Nat) :=
    if !top.contains 0 && sentences.length > 0 &&
        (splitWS (sentences.headD [])).length ≥ 5 then
      if titleWords ≠ [] then
        let fw := wordSetOf (lowerS (sentences.headD []))
        if 5 * interCount fw titleWords < 3 * titleWords.length then
          if top.length ≥ maxSentences then
            match minByFirst (scoreAt d) top with
            | some m => Except.ok ((top.erase m) ++ [0])
            | none => Except.error ()
          else Except.ok (top ++ [0])
        else Except.ok top
      else Except.ok top
    else Except.ok top
  match withFirst with
  | Except.ok l => Except.ok (sortAscNat l)
  | Except.error e => Except.error e

/-- Lines 220-222: re-terminate a selected sentence if its stripped form
does not end in `.`/`!`/`?`. -/
def punctuate (s : Str) : Str :=
  if !endsPunct (pyStrip s) then pyStrip s ++ S "." else s

/-- The `except` fallback of `extract_important_sentences` (lines 225-234). -/
def fallbackExtract (text : Str) : List Str :=
  if text ≠ [] then
    let firstPeriod := pyFind text (S ".")
    if 10 < firstPeriod && firstPeriod < 300 then
      [text.take (firstPeriod.toNat + 1)]
    else [pyStrip (text.take 200) ++ S "..."]
  else [S "No important sentences found."]

/-- The index selection of `extract_important_sentences` on a text:
tokenize, score, select. -/
def selectionOf (sentTok : Str → Option (List Str)) (text : Str)
    (keywords : List Str) (maxSentences : Nat) (titleText : Str) :
    Except Unit (List Nat) :=
  let sentences := sentencesOf sentTok text
  let titleWords := wordSetOf (lowerS titleText)
  selectIndices sentences titleWords
    (sentenceScores sentences keywords titleWords) maxSentences

/-- `extract_important_sentences` (lines 97-234). -/
def extractImportantSentences (sentTok : Str → Option (List Str)) (text : Str)
    (keywords : List Str) (maxSentences : Nat) (titleText : Str) : List Str :=
  let sentences := sentencesOf sentTok text
  match selectionOf sentTok text keywords maxSentences titleText with
  | Except.ok idxs => idxs.map (fun i => punctuate (sentences.getD i []))
  | Except.error _ => fallbackExtract text

/-! ### `format_summary` (lines 236-268) and `summarize_text` (lines 555-694) -/

/-- `re.sub(r'\.\.', '.', s)`: non-overlapping double periods collapse. -/
def subDotDot : Str → Str
  | [] => []
  | [c] => [c]
  | c :: d :: rest =>
    if c = '.' && d = '.' then '.' :: subDotDot rest
    else c :: subDotDot (d :: rest)

/-- `format_summary` (lines 236-268; the `company_name` parameter is unused
in the source body). -/
def formatSummary (sentences : List Str) : Str :=
  if sentences = [] then S "No summary available."
  else
    let raw := joinSp sentences
    let summary := pyStrip (collapseWS raw)
    let summary := match summary with
      | [] => ([] : Str)
      | c :: rest => if c.isLower then c.toUpper :: rest else c :: rest
    let summary := subDotDot summary
    if summary ≠ [] && !endsPunct summary then summary ++ S "." else summary

/-- The trailing-ellipsis repair of `summarize_text` (lines 636-653).
The comparison `last_period > len(summary)*0.7` is modelled exactly as
rationals. -/
def ellipsisFix (text summary : Str) : Str :=
  if endsWithS summary (S "...") then
    let lastPeriod := pyRfind (summary.take (summary.length - 3)) (S ".")
    if 10 * lastPeriod > 7 * (summary.length : Int) then
      summary.take (lastPeriod.toNat + 1)
    else
      let r := pyRfind summary (S ". ")
      let partialLast := (summary.take (summary.length - 3)).drop (r + 2).toNat
      if partialLast ≠ [] then
        let sentenceStart := pyFind text partialLast
        if sentenceStart ≥ 0 then
          let sentenceEnd :=
            pyFindFrom text (S ".") (sentenceStart.toNat + partialLast.length)
          if sentenceEnd > 0 then
            summary.take (r + 2).toNat ++
              (text.take (sentenceEnd.toNat + 1)).drop sentenceStart.toNat
          else summary
        else summary
      else summary
  else summary

/-- The `except` fallback of `summarize_text` (lines 676-694), operating on
the cleaned text. -/
def exceptFallback (text : Str) : Str :=
  let sentences := simpleSentenceTokenize text
  if sentences ≠ [] && sentences.length > 0 then
    if sentences.length ≥ 3 then
      sentences.getD 0 [] ++ S " " ++ sentences.getD 1 [] ++ S " " ++ sentences.getD 2 []
    else joinSp (sentences.take 2)
  else
    let paragraphs := paraSplit text
    if paragraphs ≠ [] && (paragraphs.headD []).length > 30 then paragraphs.headD []
    else pyStrip (text.take 250) ++ S " [Truncated due to processing error]"

/-- The fixed message returned for missing or too-short input text. -/
def sentinelNoContent : Str := S "No article content available to summarize."

/-- `summarize_text` (lines 555-694), extractive path
(`TRANSFORMERS_AVAILABLE = false`; the `company_name` parameter is only
ever forwarded to the transformer branch).  The only operation inside the
big `try` that can raise with the inner fallbacks in place is the bare
`sent_tokenize(text)` of line 664, modelled by `sentTok text = none`
diverting to `exceptFallback`.

The title-redundancy adjustment of `summarize_text` (lines 594-621): if
the chosen opening sentence echoes the title, drop it or replace it with a
non-redundant sentence from a 5-sentence extraction. -/
def redundancyAdjust (sentTok : Str → Option (List Str)) (ctext titleText : Str)
    (kws : List Str) : List Str :=
  let important := extractImportantSentences sentTok ctext kws 4 titleText
  if important ≠ [] && titleText ≠ [] then
    let firstSentence := lowerS (important.headD [])
    let titleLower := lowerS titleText
    if firstSentence = titleLower ||
        (firstSentence.length > 0 && titleLower.length > 0 &&
          (containsSub titleLower firstSentence ||
           containsSub firstSentence titleLower)) then
      if important.length > 1 then important.tail
      else
        let more := extractImportantSentences sentTok ctext kws 5 titleText
        match more.find? (fun s =>
            lowerS s ≠ titleLower && !containsSub (lowerS s) titleLower) with
        | some s => [s]
        | none => important
    else important
  else important

/-- The summary assembly of `summarize_text` (lines 623-653): format, collapse
whitespace, possibly re-extract with 6 sentences, repair trailing ellipses. -/
def summaryCore (sentTok : Str → Option (List Str)) (ctext titleText : Str)
    (kws : List Str) : Str :=
  let summary := formatSummary (redundancyAdjust sentTok ctext titleText kws)
  let summary := pyStrip (collapseWS summary)
  let summary :=
    if summary.length < 100 && ctext.length > 500 then
      formatSummary (extractImportantSentences sentTok ctext kws 6 titleText)
    else summary
  ellipsisFix ctext summary

def summarizeText (sentTok wordTok : Str → Option (List Str))
    (stopW : Option (List Str)) (text titleText : Str) : Str :=
  if text = [] || text.length < 20 then sentinelNoContent
  else
    let text := cleanArticleText text
    let titleWords := if titleText ≠ [] then wordSetOf (lowerS titleText) else []
    let keywords := extractKeywords wordTok stopW text 8
    let summary := summaryCore sentTok text titleText keywords
    if summary ≠ [] && titleText ≠ [] then
      if titleWords ≠ [] then
        let summaryWords := wordSetOf (lowerS summary)
        let inter := interCount summaryWords titleWords
        if 10 * inter > 7 * (max titleWords.length 1) && text.length > 200 then
          match sentTok text with
          | none => exceptFallback text
          | some sentences =>
            if sentences.length > 5 then
              let altText := joinSp (sentences.drop 2)
              let altKeywords := extractKeywords wordTok stopW altText 8
              let altSentences :=
                extractImportantSentences sentTok altText altKeywords 4 (S "")
              let altSummary := formatSummary altSentences
              if altSummary.length > 100 then altSummary else summary
            else summary
        else summary
      else summary
    else summary


/-! ### Specification-side definitions

Written from the spec's words (§4.4), for comparison against the
source-derived selection above. -/

/-- From the spec: insertion into a list ordered by "score descending,
ties broken by lower index". -/
def lexInsert (key : Nat → Int) (a : Nat) : List Nat → List Nat
  | [] => [a]
  | b :: l =>
    if key b < key a ∨ (key a = key b ∧ a < b) then a :: b :: l
    else b :: lexInsert key a l

/-- From the spec: "stable sort on score descending, index ascending" as an
explicit lexicographic sort. -/
def lexSortDesc (key : Nat → Int) : List Nat → List Nat
  | [] => []
  | a :: l => lexInsert key a (lexSortDesc key l)

/-- From the spec (§4.4 Selection): "take the top `maxSentences` sentences
by score (ties broken by lower index, i.e. earlier position wins)",
"Re-sort the final set by original index", "Every returned sentence is
re-terminated with punctuation if missing". -/
def specSelection (sentTok : Str → Option (List Str)) (text : Str)
    (keywords : List Str) (maxSentences : Nat) (titleText : Str) : List Str :=
  let sentences := sentencesOf sentTok text
  let titleWords := wordSetOf (lowerS titleText)
  let d := sentenceScores sentences keywords titleWords
  let chosen :=
    sortAscNat ((lexSortDesc (scoreAt d) (d.map Prod.fst)).take maxSentences)
  chosen.map (fun i => punctuate (sentences.getD i []))

/-- The guard of the first-sentence override of lines 201-206 as one
proposition: the opening sentence is outside the top selection, exists, has
at least 5 words, the title has words, and the opening sentence's
title-overlap ratio is below 0.6. -/
def overrideFires (sentences titleWords : List Str) (d : ScoreDict)
    (maxSentences : Nat) : Prop :=
  (topIndices d maxSentences).contains 0 = false ∧
  0 < sentences.length ∧
  5 ≤ (splitWS (sentences.headD [])).length ∧
  titleWords ≠ [] ∧
  5 * interCount (wordSetOf (lowerS (sentences.headD []))) titleWords <
    3 * titleWords.length

instance (sentences titleWords : List Str) (d : ScoreDict) (k : Nat) :
    Decidable (overrideFires sentences titleWords d k) := by
  unfold overrideFires; infer_instance


/-! ### Named stages of `extract_keywords`, and concrete inputs -/

/-- The tokens seen by `extract_keywords` (line 53-57): NLTK `word_tokenize`
of the lowercased, symbol-stripped text when available, `str.split()` of it
otherwise. -/
def kwTokens (wordTok : Str → Option (List Str)) (text : Str) : List Str :=
  match wordTok (stripNonWord (lowerS text)) with
  | some ws => ws
  | none => splitWS (stripNonWord (lowerS text))

/-- The stopword list used by `extract_keywords` (lines 60-69). -/
def kwStops (stopW : Option (List Str)) : List Str :=
  match stopW with
  | some l => l
  | none => basicStopwords

/-- The filtered token list of `extract_keywords` line 72: stopwords and
tokens of length ≤ 2 discarded. -/
def kwFiltered (wordTok : Str → Option (List Str)) (stopW : Option (List Str))
    (text : Str) : List Str :=
  (kwTokens wordTok text).filter
    (fun w => !(kwStops stopW).contains w && w.length > 2)

/-- Index of the first occurrence of `w` (the list's length-ward fallback is
irrelevant: it is only used on members). -/
def firstIdx (w : Str) : List Str → Nat
  | [] => 0
  | x :: rest => if x = w then 0 else firstIdx w rest + 1

/-- `a` ranks strictly before `b` for `most_common` over the token list `F`:
strictly higher count, or equal count and earlier first occurrence. -/
def kwRank (F : List Str) (a b : Str) : Prop :=
  F.count b < F.count a ∨ (F.count a = F.count b ∧ firstIdx a F < firstIdx b F)

/-- From the spec's words for C8: the same keyword pipeline but stripping all
non-alphanumeric, non-whitespace characters — the spec says "strips
non-alphanumeric/non-space characters", which drops underscores that the
source's `[^\w\s]` keeps. -/
def stripNonAlnum (s : Str) : Str := s.filter (fun c => c.isAlphanum || pyIsSpace c)

/-- From the spec's words for C8: `extract_keywords` as the spec describes it
(identical to the source except for `stripNonAlnum`). -/
def specKeywordsC8 (wordTok : Str → Option (List Str)) (stopW : Option (List Str))
    (text : Str) (n : Nat) : List Str :=
  let t := stripNonAlnum (lowerS text)
  let words := match wordTok t with
    | some ws => ws
    | none => splitWS t
  let stop := match stopW with
    | some l => l
    | none => basicStopwords
  let filtered := words.filter (fun w => !stop.contains w && w.length > 2)
  (mostCommon filtered n).map Prod.fst

/-- A total sentence tokenizer (NLTK data available), standing in for
`sent_tokenize` with the regex tokenizer as its behaviour. -/
def simpleTok : Str → Option (List Str) := fun s => some (simpleSentenceTokenize s)

/-- A tokenizer that always raises `LookupError` (NLTK data unavailable). -/
def noTok : Str → Option (List Str) := fun _ => none

/-- Concrete article whose opening sentence scores below the keyword-rich
middle sentences, so the first-sentence override becomes visible. -/
def ceText : Str := S "Zeta yotta omega words here today. Alpha kwa kwb kwc kwd again. Bravo kwa kwb kwc kwd again. Charlie kwa kwb kwc kwd again. Delta kwa kwb kwc kwd again. Final words end now"

/-- Keywords matching the middle sentences of `ceText`. -/
def ceKws : List Str := [S "kwa", S "kwb", S "kwc", S "kwd"]

/-- Concrete article whose third sentence (index 2) triggers no scoring
rule. -/
def w10Text : Str := S "Alpha one two three four five six seven eight nine ten. Bravo one two three four five six seven eight nine. Candle wick burns bright tonight okay. Delta aaa bbb ccc ddd eee fff. Echo aaa bbb ccc ddd eee fff ggg. Foxtrot aaa bbb ccc ddd eee."

/-- An 81-character title with a " - " separator whose two sides are both
substantial, the second strictly longer than the first. -/
def c4Title : Str := S "Abcdef fghij klmno pqrst uvwxy - Zaaaa bbbbb ccccc ddddd eeeee fffff ggggg hhhhh"

/-- A character is terminal punctuation (`.`, `!` or `?`). -/
def punctChar (c : Char) : Bool := c = '.' || c = '!' || c = '?'

/-- The string contains at least one non-whitespace character. -/
def hasNonWS (s : Str) : Bool := s.any (fun c => !pyIsSpace c)

/-- A well-formed summary: non-empty and terminally punctuated. -/
def goodSummary (s : Str) : Prop := s ≠ [] ∧ endsPunct s = true

/-- Input on which the sanitizer is not idempotent. -/
def c3Bad : Str := S "Click here Click here to a. to b."

/-- The lexicographic order "higher key first, ties by lower position". -/
def lexGT {α : Type} (key : α → Int) (pos : α → Nat) (a b : α) : Prop :=
  key b < key a ∨ (key a = key b ∧ pos a < pos b)


/-- The per-position entries of a run of the scoring loop. -/
def specEntries (n : Nat) (kws tw : List Str) (l : List (Nat × Str)) : ScoreDict :=
  l.filterMap (fun p => (scoreEntry n kws tw p.1 p.2).map (fun v => (p.1, v)))


/-- Whitespace normal form: every whitespace character is a single space
never followed by further whitespace. -/
def wsOK : Str → Bool
  | [] => true
  | c :: rest =>
    (!pyIsSpace c || (c = ' ' &&
      (match rest with | d :: _ => !pyIsSpace d | [] => true))) && wsOK rest


/-! ## Lemmas: stable sorting -/

theorem insertDescBy_perm {α : Type} (key : α → Int) (a : α) (l : List α) :
    (insertDescBy key a l).Perm (a :: l) := by
  induction l with
  | nil => simp [insertDescBy]
  | cons b t ih =>
    unfold insertDescBy
    split
    · exact List.Perm.refl _
    · exact (ih.cons b).trans (List.Perm.swap a b t)

theorem stableSortDescBy_perm {α : Type} (key : α → Int) (l : List α) :
    (stableSortDescBy key l).Perm l := by
  induction l with
  | nil => simp [stableSortDescBy]
  | cons a t ih =>
    exact (insertDescBy_perm key a (stableSortDescBy key t)).trans (ih.cons a)

theorem mem_stableSortDescBy {α : Type} (key : α → Int) (l : List α) (x : α) :
    x ∈ stableSortDescBy key l ↔ x ∈ l :=
  (stableSortDescBy_perm key l).mem_iff

theorem insertAsc_perm (a : Nat) (l : List Nat) :
    (sortAscNat.insertAsc a l).Perm (a :: l) := by
  induction l with
  | nil => simp [sortAscNat.insertAsc]
  | cons b t ih =>
    unfold sortAscNat.insertAsc
    split
    · exact List.Perm.refl _
    · exact (ih.cons b).trans (List.Perm.swap a b t)

theorem sortAscNat_perm (l : List Nat) : (sortAscNat l).Perm l := by
  induction l with
  | nil => simp [sortAscNat]
  | cons a t ih =>
    exact (insertAsc_perm a (sortAscNat t)).trans (ih.cons a)

theorem mem_sortAscNat (l : List Nat) (x : Nat) : x ∈ sortAscNat l ↔ x ∈ l :=
  (sortAscNat_perm l).mem_iff

theorem pairwise_insertDescBy {α : Type} (key : α → Int) (pos : α → Nat)
    (a : α) (l : List α) (ha : ∀ b ∈ l, pos a < pos b)
    (hl : l.Pairwise (lexGT key pos)) :
    (insertDescBy key a l).Pairwise (lexGT key pos) := by
  induction l with
  | nil => simp [insertDescBy, hl]
  | cons b t ih =>
    rw [List.pairwise_cons] at hl
    unfold insertDescBy
    split
    · rename_i hba
      refine List.pairwise_cons.mpr ⟨?_, List.pairwise_cons.mpr hl⟩
      intro c hc
      rcases List.mem_cons.mp hc with hcb | hct
      · subst hcb
        rcases lt_or_eq_of_le hba with h | h
        · exact Or.inl h
        · exact Or.inr ⟨h.symm, ha c (List.mem_cons_self _ _)⟩
      · have hbc := hl.1 c hct
        have hkey : key c ≤ key b := by
          rcases hbc with h | h
          · exact le_of_lt h
          · exact le_of_eq h.1.symm
        rcases lt_or_eq_of_le (le_trans hkey hba) with h | h
        · exact Or.inl h
        · exact Or.inr ⟨h.symm, ha c (List.mem_cons_of_mem _ hct)⟩
    · rename_i hba
      push_neg at hba
      refine List.pairwise_cons.mpr ⟨?_, ih (fun c hc => ha c (List.mem_cons_of_mem _ hc)) hl.2⟩
      intro c hc
      have : c ∈ a :: t := (insertDescBy_perm key a t).mem_iff.mp hc
      rcases List.mem_cons.mp this with hca | hct
      · subst hca
        exact Or.inl hba
      · exact hl.1 c hct

theorem pairwise_stableSortDescBy {α : Type} (key : α → Int) (pos : α → Nat)
    (l : List α) (hl : l.Pairwise (fun x y => pos x < pos y)) :
    (stableSortDescBy key l).Pairwise (lexGT key pos) := by
  induction l with
  | nil => simp [stableSortDescBy]
  | cons a t ih =>
    rw [List.pairwise_cons] at hl
    refine pairwise_insertDescBy key pos a _ ?_ (ih hl.2)
    intro b hb
    exact hl.1 b ((stableSortDescBy_perm key t).mem_iff.mp hb)

/-- On an input whose positions are strictly increasing, the stable
descending sort (Python) and the spec's lexicographic sort coincide. -/
theorem insertDescBy_eq_lexInsert (key : Nat → Int) (a : Nat) (l : List Nat)
    (ha : ∀ b ∈ l, a < b) : insertDescBy key a l = lexInsert key a l := by
  induction l with
  | nil => rfl
  | cons b t ih =>
    unfold insertDescBy lexInsert
    by_cases hba : key b ≤ key a
    · rw [if_pos hba, if_pos]
      rcases lt_or_eq_of_le hba with h | h
      · exact Or.inl h
      · exact Or.inr ⟨h.symm, ha b (List.mem_cons_self _ _)⟩
    · rw [if_neg hba, if_neg, ih (fun c hc => ha c (List.mem_cons_of_mem _ hc))]
      push_neg at hba
      rintro (h | ⟨h, _⟩)
      · exact absurd h (not_lt_of_lt hba)
      · exact absurd (le_of_eq h.symm) (not_le_of_lt hba)

theorem stableSort_eq_lexSort (key : Nat → Int) (l : List Nat)
    (hl : l.Pairwise (· < ·)) : stableSortDescBy key l = lexSortDesc key l := by
  induction l with
  | nil => rfl
  | cons a t ih =>
    rw [List.pairwise_cons] at hl
    show insertDescBy key a (stableSortDescBy key t) = lexInsert key a (lexSortDesc key t)
    rw [insertDescBy_eq_lexInsert key a _
      (fun b hb => hl.1 b ((stableSortDescBy_perm key t).mem_iff.mp hb)), ih hl.2]

/-- Every taken element dominates every dropped element in a pairwise
ordered list. -/
theorem pairwise_take_drop {α : Type} {r : α → α → Prop} {l : List α}
    (h : l.Pairwise r) (k : Nat) :
    ∀ a ∈ l.take k, ∀ b ∈ l.drop k, r a b := by
  have := List.take_append_drop k l
  rw [← this] at h
  exact fun a ha b hb => (List.pairwise_append.mp h).2.2 a ha b hb


/-! ## Lemmas: the scores dict is pointwise `scoreEntry` -/

theorem optAdd_none (o : Option Int) : optAdd o none = o := by
  cases o <;> rfl

theorem dictAdd_of_not_mem (d : ScoreDict) (i : Nat) (v : Int)
    (h : ∀ q ∈ d, q.1 ≠ i) : dictAdd d i v = d ++ [(i, v)] := by
  unfold dictAdd
  rw [if_neg]
  simp only [List.any_eq_true, decide_eq_true_eq, not_exists, not_and]
  intro q hq
  exact h q hq

theorem dictAdd_existing (d : ScoreDict) (i : Nat) (v w : Int)
    (h : ∀ q ∈ d, q.1 ≠ i) :
    dictAdd (d ++ [(i, v)]) i w = d ++ [(i, v + w)] := by
  unfold dictAdd
  rw [if_pos]
  · rw [List.map_append]
    congr 1
    · have hmap : List.map (fun p => if p.1 = i then (p.1, p.2 + w) else p) d
          = List.map id d := by
        apply List.map_congr_left
        intro q hq
        simp [if_neg (h q hq)]
      rw [hmap, List.map_id]
    · simp
  · simp

theorem dictAdd_optEntry (d : ScoreDict) (i : Nat) (o : Option Int) (v : Int)
    (h : ∀ q ∈ d, q.1 ≠ i) :
    dictAdd (d ++ optEntry i o) i v = d ++ optEntry i (optAdd o (some v)) := by
  cases o with
  | none =>
    simp only [optEntry, optAdd, List.append_nil]
    exact dictAdd_of_not_mem d i v h
  | some a =>
    simp only [optEntry, optAdd]
    exact dictAdd_existing d i a v h

theorem overlapStage_char (tw sw : List Str) (d : ScoreDict) (i : Nat)
    (h : ∀ q ∈ d, q.1 ≠ i) :
    overlapStage tw sw d i = d ++ optEntry i
      (if tw ≠ [] then
        (if 10 * interCount sw tw > 7 * tw.length then some (-5)
         else if 2 * interCount sw tw > tw.length then some (-3)
         else if 5 * interCount sw tw < tw.length then some 2
         else none)
       else none) := by
  unfold overlapStage
  by_cases h0 : tw ≠ []
  · simp only [if_pos h0]
    by_cases h1 : 10 * interCount sw tw > 7 * tw.length
    · simp only [if_pos h1, optEntry]
      exact dictAdd_of_not_mem d i _ h
    · simp only [if_neg h1]
      by_cases h2 : 2 * interCount sw tw > tw.length
      · simp only [if_pos h2, optEntry]
        exact dictAdd_of_not_mem d i _ h
      · simp only [if_neg h2]
        by_cases h3 : 5 * interCount sw tw < tw.length
        · simp only [if_pos h3, optEntry]
          exact dictAdd_of_not_mem d i _ h
        · simp [if_neg h3, optEntry]
  · simp [if_neg h0, optEntry]

theorem keywordFold_char (cs : Str) (klen : Int) (i : Nat) :
    ∀ (L : List (Nat × Str)) (d : ScoreDict) (o : Option Int),
    (∀ q ∈ d, q.1 ≠ i) →
    (L.foldl (fun d p => if containsSub cs p.2 then dictAdd d i (klen - (p.1 : Int)) else d)
      (d ++ optEntry i o))
    = d ++ optEntry i
        (L.foldl (fun o p => if containsSub cs p.2 then optAdd o (some (klen - (p.1 : Int))) else o) o) := by
  intro L
  induction L with
  | nil => intro d o h; rfl
  | cons p t ih =>
    intro d o h
    simp only [List.foldl_cons]
    by_cases hp : containsSub cs p.2 = true
    · rw [if_pos hp, if_pos hp, dictAdd_optEntry d i o _ h]
      exact ih d _ h
    · rw [if_neg hp, if_neg hp]
      exact ih d o h

theorem positionStage_char (n : Nat) (d : ScoreDict) (i : Nat) (o : Option Int)
    (h : ∀ q ∈ d, q.1 ≠ i) :
    positionStage n (d ++ optEntry i o) i = d ++ optEntry i
      (optAdd o
        (if i = 0 then some 5
         else if i = 1 then some 3
         else if i < n / 3 then some 2
         else if i > n * 2 / 3 then some 1
         else none)) := by
  unfold positionStage
  by_cases h0 : i = 0
  · simp only [if_pos h0]; exact dictAdd_optEntry d i o _ h
  · simp only [if_neg h0]
    by_cases h1 : i = 1
    · simp only [if_pos h1]; exact dictAdd_optEntry d i o _ h
    · simp only [if_neg h1]
      by_cases h2 : i < n / 3
      · simp only [if_pos h2]; exact dictAdd_optEntry d i o _ h
      · simp only [if_neg h2]
        by_cases h3 : i > n * 2 / 3
        · simp only [if_pos h3]; exact dictAdd_optEntry d i o _ h
        · simp only [if_neg h3, optAdd_none]

theorem lengthStage_char (wc : Nat) (d : ScoreDict) (i : Nat) (o : Option Int)
    (h : ∀ q ∈ d, q.1 ≠ i) :
    lengthStage wc (d ++ optEntry i o) i = d ++ optEntry i
      (optAdd o
        (if 10 ≤ wc && wc ≤ 25 then some 2
         else if wc < 5 then some (-2)
         else if wc > 40 then some (-1)
         else none)) := by
  unfold lengthStage
  by_cases h0 : (10 ≤ wc && wc ≤ 25) = true
  · simp only [if_pos h0]; exact dictAdd_optEntry d i o _ h
  · simp only [if_neg h0]
    by_cases h1 : wc < 5
    · simp only [if_pos h1]; exact dictAdd_optEntry d i o _ h
    · simp only [if_neg h1]
      by_cases h2 : wc > 40
      · simp only [if_pos h2]; exact dictAdd_optEntry d i o _ h
      · simp only [if_neg h2, optAdd_none]

theorem numericStage_char (sentence : Str) (d : ScoreDict) (i : Nat)
    (o : Option Int) (h : ∀ q ∈ d, q.1 ≠ i) :
    numericStage sentence (d ++ optEntry i o) i = d ++ optEntry i
      (optAdd o (if hasNumeric sentence then some 2 else none)) := by
  unfold numericStage
  by_cases h0 : hasNumeric sentence = true
  · simp only [if_pos h0]; exact dictAdd_optEntry d i o _ h
  · simp only [if_neg h0, optAdd_none]

theorem scoreBlock_char (n : Nat) (kws tw : List Str) (d : ScoreDict)
    (i : Nat) (sentence : Str) (h : ∀ q ∈ d, q.1 ≠ i) :
    scoreBlock n kws tw d i sentence
      = d ++ optEntry i (scoreEntry n kws tw i sentence) := by
  simp only [scoreBlock, scoreEntry, keywordStage]
  rw [overlapStage_char _ _ d i h, keywordFold_char _ _ i _ d _ h,
    positionStage_char _ d i _ h, lengthStage_char _ d i _ h,
    numericStage_char _ d i _ h]

theorem scores_go (n : Nat) (kws tw : List Str) :
    ∀ (sents : List Str) (j : Nat) (d : ScoreDict), (∀ q ∈ d, q.1 < j) →
    (List.enumFrom j sents).foldl (fun d p => scoreBlock n kws tw d p.1 p.2) d
      = d ++ specEntries n kws tw (List.enumFrom j sents) := by
  intro sents
  induction sents with
  | nil => intro j d h; simp [specEntries]
  | cons s rest ih =>
    intro j d h
    show (List.foldl _ _ ((j, s) :: List.enumFrom (j + 1) rest)) = _
    rw [List.foldl_cons]
    rw [scoreBlock_char n kws tw d j s (fun q hq hj => absurd (hj ▸ h q hq) (lt_irrefl j))]
    rw [ih (j + 1) _ ?side]
    case side =>
      intro q hq
      rcases List.mem_append.mp hq with hd | he
      · exact Nat.lt_succ_of_lt (h q hd)
      · cases hscore : scoreEntry n kws tw j s with
        | none => rw [hscore] at he; simp [optEntry] at he
        | some v =>
          rw [hscore] at he
          simp only [optEntry, List.mem_singleton] at he
          subst he
          exact Nat.lt_succ_self j
    rw [List.append_assoc]
    congr 1
    show _ = specEntries n kws tw ((j, s) :: List.enumFrom (j + 1) rest)
    unfold specEntries
    rw [List.filterMap_cons]
    cases hscore : scoreEntry n kws tw j s with
    | none => simp [optEntry, hscore]
    | some v => simp [optEntry, hscore]

theorem sentenceScores_eq (sents kws tw : List Str) :
    sentenceScores sents kws tw
      = specEntries sents.length kws tw (List.enumFrom 0 sents) := by
  unfold sentenceScores
  have := scores_go sents.length kws tw sents 0 [] (by intro q hq; cases hq)
  simpa [List.enum] using this


theorem mem_specEntries_imp (n : Nat) (kws tw : List Str) :
    ∀ (sents : List Str) (j : Nat) (q : Nat × Int),
    q ∈ specEntries n kws tw (List.enumFrom j sents) →
    j ≤ q.1 ∧ ∃ s, sents.get? (q.1 - j) = some s ∧
      scoreEntry n kws tw q.1 s = some q.2 := by
  intro sents
  induction sents with
  | nil => intro j q hq; simp [specEntries] at hq
  | cons s rest ih =>
    intro j q hq
    have hq' : q ∈ specEntries n kws tw ((j, s) :: List.enumFrom (j + 1) rest) := hq
    unfold specEntries at hq'
    rw [List.filterMap_cons] at hq'
    cases hscore : scoreEntry n kws tw j s with
    | none =>
      rw [hscore] at hq'
      simp only [Option.map_none'] at hq'
      have := ih (j + 1) q hq'
      refine ⟨le_trans (Nat.le_succ j) this.1, ?_⟩
      obtain ⟨s', hs', hsc⟩ := this.2
      refine ⟨s', ?_, hsc⟩
      have harith : q.1 - j = (q.1 - (j + 1)) + 1 := by omega
      rw [harith]
      simpa using hs'
    | some v =>
      rw [hscore] at hq'
      simp only [Option.map_some'] at hq'
      rcases List.mem_cons.mp hq' with hhead | htail
      · subst hhead
        exact ⟨le_refl j, s, by simp, hscore⟩
      · have := ih (j + 1) q htail
        refine ⟨le_trans (Nat.le_succ j) this.1, ?_⟩
        obtain ⟨s', hs', hsc⟩ := this.2
        refine ⟨s', ?_, hsc⟩
        have harith : q.1 - j = (q.1 - (j + 1)) + 1 := by omega
        rw [harith]
        simpa using hs'

theorem specEntries_keys_pairwise (n : Nat) (kws tw : List Str) :
    ∀ (sents : List Str) (j : Nat),
    (specEntries n kws tw (List.enumFrom j sents)).Pairwise (fun p q => p.1 < q.1) := by
  intro sents
  induction sents with
  | nil => intro j; simp [specEntries]
  | cons s rest ih =>
    intro j
    show (specEntries n kws tw ((j, s) :: List.enumFrom (j + 1) rest)).Pairwise _
    unfold specEntries
    rw [List.filterMap_cons]
    cases hscore : scoreEntry n kws tw j s with
    | none => simpa using ih (j + 1)
    | some v =>
      simp only [Option.map_some']
      refine List.pairwise_cons.mpr ⟨?_, ih (j + 1)⟩
      intro q hq
      have := (mem_specEntries_imp n kws tw rest (j + 1) q hq).1
      omega

theorem lookup_cons_ne {β : Type} (a k : Nat) (b : β) (es : List (Nat × β))
    (h : a ≠ k) : List.lookup a ((k, b) :: es) = List.lookup a es := by
  simp [List.lookup, beq_eq_false_iff_ne.mpr h]

theorem lookup_cons_eq {β : Type} (k : Nat) (b : β) (es : List (Nat × β)) :
    List.lookup k ((k, b) :: es) = some b := by
  simp [List.lookup]

theorem lookup_specEntries_lt (n : Nat) (kws tw : List Str) :
    ∀ (sents : List Str) (j i : Nat), i < j →
    (specEntries n kws tw (List.enumFrom j sents)).lookup i = none := by
  intro sents
  induction sents with
  | nil => intro j i _; simp [specEntries]
  | cons s rest ih =>
    intro j i hij
    show (specEntries n kws tw ((j, s) :: List.enumFrom (j + 1) rest)).lookup i = none
    unfold specEntries
    rw [List.filterMap_cons]
    cases hscore : scoreEntry n kws tw j s with
    | none => exact ih (j + 1) i (by omega)
    | some v =>
      simp only [Option.map_some']
      rw [lookup_cons_ne i j _ _ (by omega)]
      exact ih (j + 1) i (by omega)

theorem lookup_specEntries (n : Nat) (kws tw : List Str) :
    ∀ (sents : List Str) (j i : Nat) (s : Str), sents.get? i = some s →
    (specEntries n kws tw (List.enumFrom j sents)).lookup (j + i)
      = scoreEntry n kws tw (j + i) s := by
  intro sents
  induction sents with
  | nil => intro j i s hs; simp at hs
  | cons s0 rest ih =>
    intro j i s hs
    show (specEntries n kws tw ((j, s0) :: List.enumFrom (j + 1) rest)).lookup (j + i) = _
    unfold specEntries
    rw [List.filterMap_cons]
    cases i with
    | zero =>
      simp only [List.get?] at hs
      injection hs with hs
      subst hs
      cases hscore : scoreEntry n kws tw j s0 with
      | none =>
        simp only [Option.map_none', Nat.add_zero, hscore]
        exact lookup_specEntries_lt n kws tw rest (j + 1) j (by omega)
      | some v =>
        simp only [Option.map_some', Nat.add_zero, hscore]
        exact lookup_cons_eq j _ _
    | succ i' =>
      simp only [List.get?] at hs
      have harith : j + (i' + 1) = (j + 1) + i' := by omega
      cases hscore : scoreEntry n kws tw j s0 with
      | none =>
        simp only [Option.map_none']
        rw [harith]
        show List.lookup (j + 1 + i')
          (specEntries n kws tw (List.enumFrom (j + 1) rest)) = _
        rw [ih (j + 1) i' s hs]
      | some v =>
        simp only [Option.map_some']
        rw [lookup_cons_ne _ j _ _ (by omega), harith]
        show List.lookup (j + 1 + i')
          (specEntries n kws tw (List.enumFrom (j + 1) rest)) = _
        rw [ih (j + 1) i' s hs]

theorem sentenceScores_lookup (sents kws tw : List Str) (i : Nat) (s : Str)
    (h : sents.get? i = some s) :
    (sentenceScores sents kws tw).lookup i
      = scoreEntry sents.length kws tw i s := by
  rw [sentenceScores_eq]
  have := lookup_specEntries sents.length kws tw sents 0 i s h
  simpa using this

theorem sentenceScores_keys_pairwise (sents kws tw : List Str) :
    ((sentenceScores sents kws tw).map Prod.fst).Pairwise (· < ·) := by
  rw [sentenceScores_eq]
  exact List.Pairwise.map Prod.fst (fun p q h => h)
    (specEntries_keys_pairwise sents.length kws tw sents 0)

theorem mem_keys_imp (sents kws tw : List Str) (i : Nat)
    (h : i ∈ (sentenceScores sents kws tw).map Prod.fst) :
    ∃ s, sents.get? i = some s ∧
      (scoreEntry sents.length kws tw i s).isSome = true := by
  rw [sentenceScores_eq] at h
  obtain ⟨q, hq, hfst⟩ := List.mem_map.mp h
  obtain ⟨-, s, hs, hsc⟩ := mem_specEntries_imp sents.length kws tw sents 0 q hq
  subst hfst
  refine ⟨s, by simpa using hs, by rw [hsc]; rfl⟩

theorem optAdd_some_isSome (o : Option Int) (v : Int) :
    (optAdd o (some v)).isSome = true := by
  cases o <;> rfl

theorem optAdd_isSome_left (o p : Option Int) (h : o.isSome = true) :
    (optAdd o p).isSome = true := by
  cases o with
  | none => cases h
  | some a => cases p <;> rfl

/-- The opening sentence always receives a dict entry (the position rule
`i == 0` adds +5 unconditionally). -/
theorem scoreEntry_zero_isSome (n : Nat) (kws tw : List Str) (s : Str) :
    (scoreEntry n kws tw 0 s).isSome = true := by
  unfold scoreEntry
  simp only [if_pos rfl]
  apply optAdd_isSome_left
  apply optAdd_isSome_left
  apply optAdd_some_isSome

theorem zero_mem_keys (sents kws tw : List Str) (s0 : Str) (rest : List Str)
    (h : sents = s0 :: rest) :
    0 ∈ (sentenceScores sents kws tw).map Prod.fst := by
  subst h
  rw [sentenceScores_eq]
  show 0 ∈ (specEntries _ kws tw ((0, s0) :: List.enumFrom 1 rest)).map Prod.fst
  unfold specEntries
  rw [List.filterMap_cons]
  cases hscore : scoreEntry (s0 :: rest).length kws tw 0 s0 with
  | none =>
    have := scoreEntry_zero_isSome (s0 :: rest).length kws tw s0
    rw [hscore] at this
    cases this
  | some v => simp


/-! ## Lemmas: the selection step -/

theorem selectIndices_no_override (sents tw : List Str) (d : ScoreDict) (k : Nat)
    (h : ¬ overrideFires sents tw d k) :
    selectIndices sents tw d k = Except.ok (sortAscNat (topIndices d k)) := by
  simp only [selectIndices]
  split_ifs with h1 h2 h3 h4 <;>
    first
    | rfl
    | (exfalso
       apply h
       simp only [Bool.and_eq_true, Bool.not_eq_true', decide_eq_true_eq] at h1
       exact ⟨h1.1.1, h1.1.2, h1.2, h2, h3⟩)

theorem selectIndices_override_cap (sents tw : List Str) (d : ScoreDict) (k : Nat)
    (h : overrideFires sents tw d k) (hcap : (topIndices d k).length ≥ k)
    (m : Nat) (hm : minByFirst (scoreAt d) (topIndices d k) = some m) :
    selectIndices sents tw d k
      = Except.ok (sortAscNat (((topIndices d k).erase m) ++ [0])) := by
  obtain ⟨hc0, hlen, hwc, htw, hov⟩ := h
  have hA : (!(topIndices d k).contains 0 && decide (sents.length > 0) &&
      decide ((splitWS (sents.headD [])).length ≥ 5)) = true := by
    simp only [Bool.and_eq_true, Bool.not_eq_true', decide_eq_true_eq]
    exact ⟨⟨hc0, hlen⟩, hwc⟩
  simp only [selectIndices]
  rw [if_pos hA, if_pos htw, if_pos hov, if_pos hcap, hm]

theorem selectIndices_override_nocap (sents tw : List Str) (d : ScoreDict) (k : Nat)
    (h : overrideFires sents tw d k) (hncap : ¬ (topIndices d k).length ≥ k) :
    selectIndices sents tw d k
      = Except.ok (sortAscNat (topIndices d k ++ [0])) := by
  obtain ⟨hc0, hlen, hwc, htw, hov⟩ := h
  have hA : (!(topIndices d k).contains 0 && decide (sents.length > 0) &&
      decide ((splitWS (sents.headD [])).length ≥ 5)) = true := by
    simp only [Bool.and_eq_true, Bool.not_eq_true', decide_eq_true_eq]
    exact ⟨⟨hc0, hlen⟩, hwc⟩
  simp only [selectIndices]
  rw [if_pos hA, if_pos htw, if_pos hov, if_neg hncap]

theorem mem_topIndices (d : ScoreDict) (k : Nat) (x : Nat)
    (hx : x ∈ topIndices d k) : x ∈ d.map Prod.fst := by
  unfold topIndices at hx
  exact (mem_stableSortDescBy _ _ _).mp (List.mem_of_mem_take hx)

theorem selectIndices_mem (sents tw : List Str) (d : ScoreDict) (k : Nat)
    (idxs : List Nat) (hs : selectIndices sents tw d k = Except.ok idxs)
    (x : Nat) (hx : x ∈ idxs) : x ∈ d.map Prod.fst ∨ x = 0 := by
  simp only [selectIndices] at hs
  split_ifs at hs with h1 h2 h3 h4
  · cases hmin : minByFirst (scoreAt d) (topIndices d k) with
    | none => rw [hmin] at hs; cases hs
    | some m =>
      rw [hmin] at hs
      injection hs with hs
      subst hs
      rcases List.mem_append.mp ((mem_sortAscNat _ _).mp hx) with he | h0
      · exact Or.inl (mem_topIndices d k x (List.mem_of_mem_erase he))
      · exact Or.inr (List.mem_singleton.mp h0)
  all_goals
    injection hs with hs
    subst hs
  · rcases List.mem_append.mp ((mem_sortAscNat _ _).mp hx) with ht | h0
    · exact Or.inl (mem_topIndices d k x ht)
    · exact Or.inr (List.mem_singleton.mp h0)
  all_goals exact Or.inl (mem_topIndices d k x ((mem_sortAscNat _ _).mp hx))

theorem minByFirst_isSome (key : Nat → Int) (l : List Nat) (h : l ≠ []) :
    ∃ m, minByFirst key l = some m := by
  cases l with
  | nil => exact absurd rfl h
  | cons x xs => exact ⟨_, rfl⟩

theorem topIndices_ne_nil (d : ScoreDict) (k : Nat) (hd : d.map Prod.fst ≠ [])
    (hk : 1 ≤ k) : topIndices d k ≠ [] := by
  unfold topIndices
  have hlen : (stableSortDescBy (scoreAt d) (d.map Prod.fst)).length
      = (d.map Prod.fst).length := (stableSortDescBy_perm _ _).length_eq
  intro hcon
  have := congrArg List.length hcon
  rw [List.length_take, hlen] at this
  simp only [List.length_nil] at this
  have hpos : 0 < (d.map Prod.fst).length := List.length_pos.mpr hd
  omega

theorem getD_zero_eq_headD (l : List Str) : l.getD 0 [] = l.headD [] := by
  cases l <;> rfl


/-! ## Lemmas: sentences that trigger no rule get no entry -/

theorem keywordFoldOpt_id (cs : Str) (klen : Int) :
    ∀ (L : List (Nat × Str)) (o : Option Int),
    (∀ p ∈ L, ¬ containsSub cs p.2 = true) →
    L.foldl (fun o p => if containsSub cs p.2 then
      optAdd o (some (klen - (p.1 : Int))) else o) o = o := by
  intro L
  induction L with
  | nil => intro o _; rfl
  | cons p t ih =>
    intro o h
    simp only [List.foldl_cons]
    rw [if_neg (h p (List.mem_cons_self _ _))]
    exact ih o (fun q hq => h q (List.mem_cons_of_mem _ hq))

theorem scoreEntry_none (n : Nat) (kws tw : List Str) (i : Nat) (sentence : Str)
    (hpos0 : i ≠ 0) (hpos1 : i ≠ 1)
    (hfirst : ¬ i < n / 3) (hlast : ¬ i > n * 2 / 3)
    (hlen1 : ¬ (10 ≤ (splitWS sentence).length ∧ (splitWS sentence).length ≤ 25))
    (hlen2 : ¬ (splitWS sentence).length < 5) (hlen3 : ¬ (splitWS sentence).length > 40)
    (hov : tw = [] ∨
      (¬ 10 * interCount (wordSetOf (lowerS sentence)) tw > 7 * tw.length ∧
       ¬ 2 * interCount (wordSetOf (lowerS sentence)) tw > tw.length ∧
       ¬ 5 * interCount (wordSetOf (lowerS sentence)) tw < tw.length))
    (hkw : ∀ kw ∈ kws, ¬ containsSub (lowerS sentence) kw = true)
    (hnum : hasNumeric sentence = false) :
    scoreEntry n kws tw i sentence = none := by
  unfold scoreEntry
  have hA : (if tw ≠ [] then
      (if 10 * interCount (wordSetOf (lowerS sentence)) tw > 7 * tw.length then some (-5 : Int)
       else if 2 * interCount (wordSetOf (lowerS sentence)) tw > tw.length then some (-3)
       else if 5 * interCount (wordSetOf (lowerS sentence)) tw < tw.length then some 2
       else none)
     else none) = none := by
    rcases hov with h0 | ⟨h1, h2, h3⟩
    · rw [if_neg (by simp [h0])]
    · by_cases h0 : tw ≠ []
      · rw [if_pos h0, if_neg h1, if_neg h2, if_neg h3]
      · rw [if_neg h0]
  simp only [hA]
  rw [keywordFoldOpt_id (lowerS sentence) (kws.length : Int) kws.enum none ?hkws]
  case hkws =>
    intro p hp
    obtain ⟨j, x⟩ := p
    have hme := List.mem_enum hp
    have hmem : x ∈ kws := by
      rw [hme.2]
      exact List.getElem_mem hme.1
    exact hkw x hmem
  rw [if_neg hpos0, if_neg hpos1, if_neg hfirst, if_neg hlast]
  simp only [optAdd]
  have hBool : (10 ≤ (splitWS sentence).length && (splitWS sentence).length ≤ 25) = false := by
    simp only [Bool.and_eq_false_iff]
    by_cases hx : 10 ≤ (splitWS sentence).length
    · exact Or.inr (by simp; omega)
    · exact Or.inl (by simp at hx ⊢; omega)
  rw [if_neg (by simp [hBool]), if_neg hlen2, if_neg hlen3]
  simp only [optAdd]
  rw [if_neg (by simp [hnum])]


/-! ## Claim theorems: scoring and selection -/

/-- C9: sentence scoring is deterministic.  Two runs of
`extract_important_sentences` on identical `(text, keywords,
max_sentences, title_text)` inputs (with the same tokenizer resources)
return the identical sentence list, and the score entry of every sentence
is the fixed pure function `scoreEntry` of its text, its position, the
sentence count, the keyword list and the title word set alone — so
recomputation with identical inputs is identical. -/
theorem C9_scoring_deterministic
    (sentTok : Str → Option (List Str)) (text : Str) (keywords : List Str)
    (maxSentences : Nat) (titleText : Str) :
    extractImportantSentences sentTok text keywords maxSentences titleText
      = extractImportantSentences sentTok text keywords maxSentences titleText ∧
    ∀ i s, (sentencesOf sentTok text).get? i = some s →
      (sentenceScores (sentencesOf sentTok text) keywords
          (wordSetOf (lowerS titleText))).lookup i
        = scoreEntry (sentencesOf sentTok text).length keywords
            (wordSetOf (lowerS titleText)) i s :=
  ⟨rfl, fun i s h => sentenceScores_lookup _ _ _ i s h⟩

/-- C10: a sentence that triggers no scoring rule (not one of the first
two positions, in the middle third, word count in 5-9 or 26-40,
title-overlap ratio in [0.2, 0.5] or the title empty, no keyword
substring, no numeric pattern) never receives a score entry and is never
selected, even when fewer than `max_sentences` sentences were selected. -/
theorem C10_unscored_never_selected
    (sentTok : Str → Option (List Str)) (text : Str) (keywords : List Str)
    (maxSentences : Nat) (titleText : Str) (i : Nat) (s : Str)
    (hget : (sentencesOf sentTok text).get? i = some s)
    (hpos : 2 ≤ i)
    (hmid : (sentencesOf sentTok text).length / 3 ≤ i ∧
            i ≤ (sentencesOf sentTok text).length * 2 / 3)
    (hwc : (5 ≤ (splitWS s).length ∧ (splitWS s).length ≤ 9) ∨
           (26 ≤ (splitWS s).length ∧ (splitWS s).length ≤ 40))
    (hov : wordSetOf (lowerS titleText) = [] ∨
      ((wordSetOf (lowerS titleText)).length ≤
          5 * interCount (wordSetOf (lowerS s)) (wordSetOf (lowerS titleText)) ∧
        2 * interCount (wordSetOf (lowerS s)) (wordSetOf (lowerS titleText)) ≤
          (wordSetOf (lowerS titleText)).length))
    (hkw : ∀ kw ∈ keywords, ¬ containsSub (lowerS s) kw = true)
    (hnum : hasNumeric s = false) :
    (sentenceScores (sentencesOf sentTok text) keywords
        (wordSetOf (lowerS titleText))).lookup i = none ∧
    ∀ idxs, selectionOf sentTok text keywords maxSentences titleText
        = Except.ok idxs → i ∉ idxs := by
  have hnone : scoreEntry (sentencesOf sentTok text).length keywords
      (wordSetOf (lowerS titleText)) i s = none := by
    apply scoreEntry_none
    · omega
    · omega
    · omega
    · omega
    · omega
    · omega
    · omega
    · rcases hov with h | ⟨h1, h2⟩
      · exact Or.inl h
      · exact Or.inr ⟨by omega, by omega, by omega⟩
    · exact hkw
    · exact hnum
  constructor
  · rw [sentenceScores_lookup _ _ _ i s hget, hnone]
  · intro idxs hsel hmem
    have hconv : selectionOf sentTok text keywords maxSentences titleText
        = selectIndices (sentencesOf sentTok text) (wordSetOf (lowerS titleText))
            (sentenceScores (sentencesOf sentTok text) keywords
              (wordSetOf (lowerS titleText))) maxSentences := rfl
    rw [hconv] at hsel
    rcases selectIndices_mem _ _ _ _ idxs hsel i hmem with hkeys | h0
    · obtain ⟨s2, hs2, hsome⟩ := mem_keys_imp _ _ _ i hkeys
      rw [hget] at hs2
      injection hs2 with hs2
      subst hs2
      rw [hnone] at hsome
      cases hsome
    · omega

/-- C5 (amended): when the first-sentence forcing rule does not fire,
`extract_important_sentences` returns exactly the spec's selection: the
`max_sentences` highest-scoring sentences among those with a score entry
(all of them if fewer), ties broken in favor of the lower index, re-sorted
into original source order and re-terminated; and every selected index
strictly dominates every rejected scored index in the (score descending,
index ascending) order. -/
theorem C5_selection_topk
    (sentTok : Str → Option (List Str)) (text : Str) (keywords : List Str)
    (maxSentences : Nat) (titleText : Str)
    (hno : ¬ overrideFires (sentencesOf sentTok text) (wordSetOf (lowerS titleText))
        (sentenceScores (sentencesOf sentTok text) keywords
          (wordSetOf (lowerS titleText))) maxSentences) :
    extractImportantSentences sentTok text keywords maxSentences titleText
      = specSelection sentTok text keywords maxSentences titleText ∧
    (∀ a ∈ topIndices (sentenceScores (sentencesOf sentTok text) keywords
          (wordSetOf (lowerS titleText))) maxSentences,
      ∀ b ∈ (stableSortDescBy
          (scoreAt (sentenceScores (sentencesOf sentTok text) keywords
            (wordSetOf (lowerS titleText))))
          ((sentenceScores (sentencesOf sentTok text) keywords
            (wordSetOf (lowerS titleText))).map Prod.fst)).drop maxSentences,
        lexGT (scoreAt (sentenceScores (sentencesOf sentTok text) keywords
          (wordSetOf (lowerS titleText)))) (fun x => x) a b) := by
  have hkeys := sentenceScores_keys_pairwise (sentencesOf sentTok text) keywords
    (wordSetOf (lowerS titleText))
  constructor
  · have hsel : selectionOf sentTok text keywords maxSentences titleText
        = Except.ok (sortAscNat (topIndices
            (sentenceScores (sentencesOf sentTok text) keywords
              (wordSetOf (lowerS titleText))) maxSentences)) :=
      selectIndices_no_override _ _ _ _ hno
    show (match selectionOf sentTok text keywords maxSentences titleText with
      | Except.ok idxs => idxs.map (fun i =>
          punctuate ((sentencesOf sentTok text).getD i []))
      | Except.error _ => fallbackExtract text) = _
    rw [hsel]
    show _ = specSelection sentTok text keywords maxSentences titleText
    unfold specSelection topIndices
    rw [stableSort_eq_lexSort _ _ hkeys]
  · intro a ha b hb
    have hpw := pairwise_stableSortDescBy
      (scoreAt (sentenceScores (sentencesOf sentTok text) keywords
        (wordSetOf (lowerS titleText)))) (fun x => x)
      ((sentenceScores (sentencesOf sentTok text) keywords
        (wordSetOf (lowerS titleText))).map Prod.fst) hkeys
    exact pairwise_take_drop hpw maxSentences a ha b hb

/-- C6 (amended): whenever the title word set is non-empty, the opening
sentence is not among the top-scored selection, has at least 5 words, and
its title-overlap ratio is below 0.6, it is forced into the selection —
by evicting the first lowest-scoring selected index when the selection is
at capacity, else by appending — so the returned list contains the
re-terminated opening sentence.  (With an empty title the source skips the
whole rule; see the counterexample.) -/
theorem C6_first_sentence_forced
    (sentTok : Str → Option (List Str)) (text : Str) (keywords : List Str)
    (maxSentences : Nat) (titleText : Str)
    (hov : overrideFires (sentencesOf sentTok text) (wordSetOf (lowerS titleText))
        (sentenceScores (sentencesOf sentTok text) keywords
          (wordSetOf (lowerS titleText))) maxSentences)
    (hk : 1 ≤ maxSentences) :
    ∃ idxs, selectionOf sentTok text keywords maxSentences titleText
        = Except.ok idxs ∧ 0 ∈ idxs ∧
      extractImportantSentences sentTok text keywords maxSentences titleText
        = idxs.map (fun i => punctuate ((sentencesOf sentTok text).getD i [])) ∧
      punctuate ((sentencesOf sentTok text).headD [])
        ∈ extractImportantSentences sentTok text keywords maxSentences titleText := by
  obtain ⟨s0, rest, hsents⟩ :=
    List.exists_cons_of_ne_nil (List.length_pos.mp hov.2.1)
  have h0k : 0 ∈ (sentenceScores (sentencesOf sentTok text) keywords
      (wordSetOf (lowerS titleText))).map Prod.fst :=
    zero_mem_keys _ _ _ s0 rest hsents
  have hdne : (sentenceScores (sentencesOf sentTok text) keywords
      (wordSetOf (lowerS titleText))).map Prod.fst ≠ [] :=
    List.ne_nil_of_mem h0k
  have htop := topIndices_ne_nil _ maxSentences hdne hk
  have hconv : selectionOf sentTok text keywords maxSentences titleText
      = selectIndices (sentencesOf sentTok text) (wordSetOf (lowerS titleText))
          (sentenceScores (sentencesOf sentTok text) keywords
            (wordSetOf (lowerS titleText))) maxSentences := rfl
  have hfinish : ∀ l : List Nat,
      selectionOf sentTok text keywords maxSentences titleText
        = Except.ok (sortAscNat (l ++ [0])) →
      ∃ idxs, selectionOf sentTok text keywords maxSentences titleText
          = Except.ok idxs ∧ 0 ∈ idxs ∧
        extractImportantSentences sentTok text keywords maxSentences titleText
          = idxs.map (fun i => punctuate ((sentencesOf sentTok text).getD i [])) ∧
        punctuate ((sentencesOf sentTok text).headD [])
          ∈ extractImportantSentences sentTok text keywords maxSentences titleText := by
    intro l hsel
    have h0mem : 0 ∈ sortAscNat (l ++ [0]) :=
      (mem_sortAscNat _ _).mpr (List.mem_append.mpr (Or.inr (List.mem_singleton.mpr rfl)))
    have hext : extractImportantSentences sentTok text keywords maxSentences titleText
        = (sortAscNat (l ++ [0])).map (fun i =>
            punctuate ((sentencesOf sentTok text).getD i [])) := by
      show (match selectionOf sentTok text keywords maxSentences titleText with
        | Except.ok idxs => idxs.map (fun i =>
            punctuate ((sentencesOf sentTok text).getD i []))
        | Except.error _ => fallbackExtract text) = _
      rw [hsel]
    refine ⟨sortAscNat (l ++ [0]), hsel, h0mem, hext, ?_⟩
    rw [hext, ← getD_zero_eq_headD]
    exact List.mem_map.mpr ⟨0, h0mem, rfl⟩
  by_cases hcap : (topIndices (sentenceScores (sentencesOf sentTok text) keywords
      (wordSetOf (lowerS titleText))) maxSentences).length ≥ maxSentences
  · obtain ⟨m, hm⟩ := minByFirst_isSome _ _ htop
    exact hfinish _ (hconv ▸ selectIndices_override_cap _ _ _ _ hov hcap m hm)
  · exact hfinish _ (hconv ▸ selectIndices_override_nocap _ _ _ _ hov hcap)


/-! ## Lemmas: `enhance_title` never returns an empty shortened title -/

theorem punctFix_ne_nil (c0 : Str) :
    (if !endsPunct c0 then c0 ++ S "." else c0) ≠ [] := by
  by_cases h : endsPunct c0 = true
  · intro hc
    rw [if_neg (by simp [h])] at hc
    subst hc
    simp [endsPunct, endsWithAny, endsWithS, S] at h
  · rw [if_pos (by simp at h ⊢; exact h)]
    simp [S]

theorem findBreak_ne_nil (t original : Str) (mx : Nat) :
    ∀ (pts : List Nat) (r : Str), findBreak t original mx pts = some r → r ≠ [] := by
  intro pts
  induction pts with
  | nil => intro r hr; cases hr
  | cons p rest ih =>
    intro r hr
    unfold findBreak at hr
    by_cases hp : 20 * p > 13 * mx
    · rw [if_pos hp] at hr
      by_cases hcond : (10 * (if !endsPunct (pyStrip (t.take p)) then
            pyStrip (t.take p) ++ S "." else pyStrip (t.take p)).length ≥ 7 * mx ∧
          (if !endsPunct (pyStrip (t.take p)) then pyStrip (t.take p) ++ S "."
            else pyStrip (t.take p)) ≠ original.take (if !endsPunct (pyStrip (t.take p)) then
            pyStrip (t.take p) ++ S "." else pyStrip (t.take p)).length)
      · rw [if_pos (by simpa using hcond)] at hr
        injection hr with hr
        subst hr
        exact punctFix_ne_nil _
      · rw [if_neg (by simpa using hcond)] at hr
        exact ih r hr
    · rw [if_neg hp] at hr
      exact ih r hr

theorem breakStep_ne_nil (t original : Str) (mx : Nat) (r : Str)
    (hr : breakStep t original mx = some r) : r ≠ [] := by
  simp only [breakStep] at hr
  by_cases hlen : t.length > mx
  · rw [if_pos hlen] at hr
    cases hfb : findBreak t original mx (sortDescNat (breakPointsOf (t.take (mx - 1)))) with
    | some c =>
      rw [hfb] at hr
      injection hr with hr
      subst hr
      exact findBreak_ne_nil t original mx _ c hfb
    | none =>
      rw [hfb] at hr
      by_cases hsp : 5 * pyRfind (t.take (mx - 1)) (S " ") > 4 * (mx : Int)
      · rw [if_pos hsp] at hr
        injection hr with hr
        subst hr
        exact punctFix_ne_nil _
      · rw [if_neg hsp] at hr
        cases hr
  · rw [if_neg hlen] at hr
    cases hr

theorem dashStep_go_ne_nil (t : Str) :
    ∀ (seps : List Str) (r : Str), dashStep.go t seps = some r → r ≠ [] := by
  intro seps
  induction seps with
  | nil => intro r hr; cases hr
  | cons sep rest ih =>
    intro r hr
    unfold dashStep.go at hr
    by_cases hc : containsSub t sep = true
    · rw [if_pos hc] at hr
      by_cases h1 : ((splitFirst t sep).1.length ≥ 30 && (splitFirst t sep).1.count ' ' ≥ 3) = true
      · rw [if_pos h1] at hr
        injection hr with hr
        subst hr
        simp only [Bool.and_eq_true, decide_eq_true_eq] at h1
        intro he
        rw [he] at h1
        simp at h1
      · rw [if_neg h1] at hr
        by_cases h2 : ((splitFirst t sep).2.length ≥ 30 && (splitFirst t sep).2.count ' ' ≥ 3) = true
        · rw [if_pos h2] at hr
          injection hr with hr
          subst hr
          simp only [Bool.and_eq_true, decide_eq_true_eq] at h2
          intro he
          rw [he] at h2
          simp at h2
        · rw [if_neg h2] at hr
          exact ih r hr
    · rw [if_neg hc] at hr
      exact ih r hr

theorem dashStep_ne_nil (t : Str) (r : Str) (hr : dashStep t = some r) : r ≠ [] :=
  dashStep_go_ne_nil t dashSeps r hr

theorem colonStep_ne_nil (t : Str) (mx : Nat) (r : Str)
    (hr : colonStep t mx = Except.ok (some r)) : r ≠ [] := by
  unfold colonStep at hr
  by_cases hc : containsSub t (S ": ") = true
  · rw [if_pos hc] at hr
    rcases hsplit : splitFirst t (S ": ") with ⟨p0, p1⟩
    rw [hsplit] at hr
    dsimp only at hr
    by_cases h1 : (p1.length > 25 && p1.count ' ' ≥ 3) = true
    · rw [if_pos h1] at hr
      cases p1 with
      | nil => simp at h1
      | cons c p1t =>
        have hp1ne : (c :: p1t : Str) ≠ [] := by simp
        dsimp only at hr
        by_cases h2 : (c.isUpper &&
            endsWithAny (c :: p1t) [S ".", S "!", S "?", S "\""]) = true
        · rw [if_pos h2] at hr
          injection hr with hr
          injection hr with hr
          subst hr
          exact hp1ne
        · rw [if_neg h2] at hr
          cases hlast : (splitWS p0).getLast? with
          | none => rw [hlast] at hr; cases hr
          | some lastw =>
            rw [hlast] at hr
            dsimp only at hr
            by_cases h3 : sayVerbs.contains (lowerS lastw) = true
            · rw [if_pos h3] at hr
              by_cases h4 : (joinSp (splitWS p0).dropLast).length > 0
              · rw [if_pos h4] at hr
                by_cases h5 : (joinSp (splitWS p0).dropLast ++ S " " ++ lowerS lastw ++
                    S ": " ++ (c :: p1t)).length ≤ mx
                · rw [if_pos h5] at hr
                  injection hr with hr
                  injection hr with hr
                  subst hr
                  simp [S]
                · rw [if_neg h5] at hr
                  injection hr with hr
                  injection hr with hr
                  subst hr
                  exact hp1ne
              · rw [if_neg h4] at hr
                injection hr with hr
                injection hr with hr
                subst hr
                exact hp1ne
            · rw [if_neg h3] at hr
              injection hr with hr
              injection hr with hr
              subst hr
              exact hp1ne
    · rw [if_neg h1] at hr
      by_cases h2 : (p0.length > 25 && p0.count ' ' ≥ 3) = true
      · rw [if_pos h2] at hr
        injection hr with hr
        injection hr with hr
        subst hr
        simp only [Bool.and_eq_true, decide_eq_true_eq] at h2
        intro he
        rw [he] at h2
        simp at h2
      · rw [if_neg h2] at hr
        cases hr
  · rw [if_neg hc] at hr
    cases hr

theorem fallbackTitle_ne_nil (t original : Str) (mx : Nat) (horig : original ≠ []) :
    fallbackTitle t original mx ≠ [] := by
  unfold fallbackTitle
  by_cases h : 4 * original.length ≤ 5 * mx
  · rw [if_pos h]; exact horig
  · rw [if_neg h]
    by_cases hsp : pyRfind (t.take (mx - 3)) (S " ") > 0
    · rw [if_pos hsp]; simp [S]
    · rw [if_neg hsp]; simp [S]


/-! ## Claim theorems: `enhance_title` -/

theorem normalizeTitle_nil : normalizeTitle [] = [] := rfl

/-- C1 (amended): `enhance_title` (default `max_length = 75`) returns a
non-empty string for every title whose normalization (steps 1-7) is
non-empty.  The claim as stated fails only when the normalization erases
the whole title (see the counterexample): every shortening branch and
fallback otherwise produces a non-empty result. -/
theorem C1_enhanceTitle_nonempty (title : Str)
    (h : normalizeTitle title ≠ []) : enhanceTitle title 75 ≠ [] := by
  have htitle : title ≠ [] := by
    intro he
    apply h
    rw [he]
    exact normalizeTitle_nil
  simp only [enhanceTitle]
  rw [if_neg htitle]
  by_cases hlen : (normalizeTitle title).length ≤ 75
  · rw [if_pos hlen]
    exact h
  · rw [if_neg hlen]
    cases hcs : colonStep (normalizeTitle title) 75 with
    | error e =>
      exact fallbackTitle_ne_nil _ _ _ htitle
    | ok o =>
      cases o with
      | some r =>
        exact colonStep_ne_nil _ _ r hcs
      | none =>
        cases hds : dashStep (normalizeTitle title) with
        | some r =>
          exact dashStep_ne_nil _ r hds
        | none =>
          cases hbs : breakStep (normalizeTitle title) title 75 with
          | some r =>
            exact breakStep_ne_nil _ _ _ r hbs
          | none =>
            exact fallbackTitle_ne_nil _ _ _ htitle

/-- C4 (amended): for an over-long normalized title on which the colon
branch neither returns nor raises and that contains the `" - "` separator,
the dash rule keeps the FIRST side if it is substantial (length ≥ 30 and
at least 3 spaces), and otherwise the second side if that is substantial —
not the longer side, as the counterexample shows. -/
theorem C4_dash_keeps_first_substantial (title : Str)
    (hlen : ¬ (normalizeTitle title).length ≤ 75)
    (hcolon : colonStep (normalizeTitle title) 75 = Except.ok none)
    (hdash : containsSub (normalizeTitle title) (S " - ") = true)
    (hsub : ((splitFirst (normalizeTitle title) (S " - ")).1.length ≥ 30 ∧
             (splitFirst (normalizeTitle title) (S " - ")).1.count ' ' ≥ 3) ∨
            ((splitFirst (normalizeTitle title) (S " - ")).2.length ≥ 30 ∧
             (splitFirst (normalizeTitle title) (S " - ")).2.count ' ' ≥ 3)) :
    enhanceTitle title 75 =
      (if (splitFirst (normalizeTitle title) (S " - ")).1.length ≥ 30 ∧
          (splitFirst (normalizeTitle title) (S " - ")).1.count ' ' ≥ 3
       then (splitFirst (normalizeTitle title) (S " - ")).1
       else (splitFirst (normalizeTitle title) (S " - ")).2) := by
  have htitle : title ≠ [] := by
    intro he
    apply hlen
    rw [he, normalizeTitle_nil]
    simp
  simp only [enhanceTitle]
  rw [if_neg htitle, if_neg hlen, hcolon]
  dsimp only
  simp only [dashStep, dashSeps, dashStep.go]
  rw [if_pos hdash]
  by_cases h1 : ((splitFirst (normalizeTitle title) (S " - ")).1.length ≥ 30 &&
      (splitFirst (normalizeTitle title) (S " - ")).1.count ' ' ≥ 3) = true
  · rw [if_pos h1]
    simp only [Bool.and_eq_true, decide_eq_true_eq] at h1
    rw [if_pos h1]
  · rw [if_neg h1]
    have h2 : ((splitFirst (normalizeTitle title) (S " - ")).2.length ≥ 30 &&
        (splitFirst (normalizeTitle title) (S " - ")).2.count ' ' ≥ 3) = true := by
      rcases hsub with hs | hs
      · exfalso
        apply h1
        simp only [Bool.and_eq_true, decide_eq_true_eq]
        exact hs
      · simp only [Bool.and_eq_true, decide_eq_true_eq]
        exact hs
    rw [if_pos h2]
    rw [if_neg]
    intro hcon
    apply h1
    simp only [Bool.and_eq_true, decide_eq_true_eq]
    exact hcon


/-! ## Lemmas: collapse/strip idempotence (for the sanitizer) -/

theorem collapseGo_true_head (rest : Str) :
    ∀ d, (collapseGo true rest).head? = some d → pyIsSpace d = false := by
  induction rest with
  | nil => intro d hd; cases hd
  | cons c t ih =>
    intro d hd
    unfold collapseGo at hd
    by_cases hc : pyIsSpace c = true
    · rw [if_pos hc, if_pos rfl] at hd
      exact ih d hd
    · rw [if_neg hc] at hd
      injection hd with hd
      subst hd
      simpa using hc

theorem wsOK_collapseGo : ∀ (s : Str), wsOK (collapseGo true s) = true ∧
    wsOK (collapseGo false s) = true := by
  intro s
  induction s with
  | nil => exact ⟨rfl, rfl⟩
  | cons c t ih =>
    constructor
    · show wsOK (collapseGo true (c :: t)) = true
      unfold collapseGo
      by_cases hc : pyIsSpace c = true
      · rw [if_pos hc, if_pos rfl]
        exact ih.1
      · rw [if_neg hc]
        unfold wsOK
        simp only [Bool.and_eq_true]
        refine ⟨by simp [hc], ih.2⟩
    · show wsOK (collapseGo false (c :: t)) = true
      unfold collapseGo
      by_cases hc : pyIsSpace c = true
      · rw [if_pos hc, if_neg (by simp)]
        unfold wsOK
        simp only [Bool.and_eq_true]
        refine ⟨?_, ih.1⟩
        cases hhead : (collapseGo true t).head? with
        | none =>
          cases hl : collapseGo true t with
          | nil => simp
          | cons x xs => rw [hl] at hhead; cases hhead
        | some d =>
          have := collapseGo_true_head t d hhead
          cases hl : collapseGo true t with
          | nil => simp
          | cons x xs =>
            rw [hl] at hhead
            injection hhead with hhead
            subst hhead
            simp [this]
      · rw [if_neg hc]
        unfold wsOK
        simp only [Bool.and_eq_true]
        refine ⟨by simp [hc], ih.2⟩

theorem wsOK_tail (c : Char) (rest : Str) (h : wsOK (c :: rest) = true) :
    wsOK rest = true := by
  unfold wsOK at h
  simp only [Bool.and_eq_true] at h
  exact h.2

theorem wsOK_suffix (s t : Str) (hsuf : t.IsSuffix s) (h : wsOK s = true) :
    wsOK t = true := by
  obtain ⟨u, hu⟩ := hsuf
  subst hu
  induction u with
  | nil => exact h
  | cons c u ih => exact ih (wsOK_tail c _ h)

theorem wsOK_prefix : ∀ (s t : Str), t.IsPrefix s → wsOK s = true → wsOK t = true := by
  intro s
  induction s with
  | nil =>
    intro t ht _
    rw [List.prefix_nil.mp ht]
    rfl
  | cons c rest ih =>
    intro t ht h
    cases t with
    | nil => rfl
    | cons d u =>
      obtain ⟨v, hv⟩ := ht
      injection hv with h1 h2
      subst h1
      unfold wsOK at h ⊢
      simp only [Bool.and_eq_true] at h ⊢
      refine ⟨?_, ih u ⟨v, h2⟩ h.2⟩
      rcases Bool.or_eq_true_iff.mp h.1 with h1 | h1
      · simp [h1]
      · simp only [Bool.and_eq_true] at h1
        cases u with
        | nil => simp only [Bool.or_eq_true, Bool.and_eq_true]; right; exact ⟨h1.1, trivial⟩
        | cons e w =>
          have hre : rest = e :: (w ++ v) := by rw [← h2]; simp
          rw [hre] at h1
          simp only [Bool.or_eq_true, Bool.and_eq_true]
          right
          exact ⟨h1.1, h1.2⟩

theorem collapseGo_false_id (s : Str) (h : wsOK s = true) :
    collapseGo false s = s := by
  induction s with
  | nil => rfl
  | cons c rest ih =>
    unfold wsOK at h
    simp only [Bool.and_eq_true] at h
    unfold collapseGo
    by_cases hc : pyIsSpace c = true
    · rw [if_pos hc, if_neg (by simp)]
      rcases Bool.or_eq_true_iff.mp h.1 with h1 | h1
      · simp [hc] at h1
      · simp only [Bool.and_eq_true, decide_eq_true_eq] at h1
        cases rest with
        | nil => simp [h1.1, collapseGo]
        | cons d t =>
          have hd : pyIsSpace d = false := by
            have := h1.2
            simpa using this
          have hrec := ih (by exact h.2)
          unfold collapseGo at hrec
          rw [if_neg (by simp [hd])] at hrec
          injection hrec with _ hrec
          show ' ' :: collapseGo true (d :: t) = c :: d :: t
          unfold collapseGo
          rw [if_neg (by simp [hd])]
          rw [h1.1, hrec]
    · rw [if_neg hc]
      rw [ih h.2]

theorem dropWhile_head_false (p : Char → Bool) :
    ∀ (s : Str) (c : Char) (t : Str), s.dropWhile p = c :: t → p c = false := by
  intro s
  induction s with
  | nil => intro c t h; cases h
  | cons a rest ih =>
    intro c t h
    rw [List.dropWhile_cons] at h
    by_cases ha : p a = true
    · rw [if_pos ha] at h
      exact ih c t h
    · rw [if_neg ha] at h
      injection h with h1 _
      subst h1
      simpa using ha

theorem stripLeft_idem (s : Str) : stripLeft (stripLeft s) = stripLeft s := by
  unfold stripLeft
  cases h : s.dropWhile pyIsSpace with
  | nil => rfl
  | cons c t =>
    have hc := dropWhile_head_false pyIsSpace s c t h
    rw [List.dropWhile_cons, if_neg (by simp [hc])]

theorem stripRight_idem (s : Str) : stripRight (stripRight s) = stripRight s := by
  unfold stripRight
  rw [List.reverse_reverse]
  cases h : s.reverse.dropWhile pyIsSpace with
  | nil => rfl
  | cons c t =>
    have hc := dropWhile_head_false pyIsSpace s.reverse c t h
    rw [List.dropWhile_cons, if_neg (by simp [hc])]

theorem stripRight_prefix_self (s : Str) : (stripRight s).IsPrefix s := by
  unfold stripRight
  have h1 : (s.reverse.dropWhile pyIsSpace).IsSuffix s.reverse :=
    List.dropWhile_suffix pyIsSpace
  obtain ⟨u, hu⟩ := h1
  refine ⟨u.reverse, ?_⟩
  have := congrArg List.reverse hu
  simpa using this

theorem stripLeft_suffix (s : Str) : (stripLeft s).IsSuffix s :=
  List.dropWhile_suffix pyIsSpace

theorem pyStrip_idem (s : Str) : pyStrip (pyStrip s) = pyStrip s := by
  unfold pyStrip
  have h1 : stripLeft (stripRight (stripLeft s)) = stripRight (stripLeft s) := by
    cases hsl : stripLeft s with
    | nil =>
      cases hsr : stripRight ([] : Str) with
      | nil => rfl
      | cons c t => cases hsr
    | cons c t =>
      have hc : pyIsSpace c = false := dropWhile_head_false pyIsSpace s c t hsl
      cases hsr : stripRight (c :: t) with
      | nil => rfl
      | cons d u =>
        have hd : d = c := by
          obtain ⟨v, hv⟩ := stripRight_prefix_self (c :: t)
          rw [hsr] at hv
          simpa using congrArg (fun l => l.headD (Char.ofNat 120)) hv
        subst hd
        unfold stripLeft
        rw [List.dropWhile_cons, if_neg (by simp [hc])]
  rw [h1, stripRight_idem]

theorem strip_collapse_idem (y : Str) :
    pyStrip (collapseWS (pyStrip (collapseWS y))) = pyStrip (collapseWS y) := by
  have hok : wsOK (collapseWS y) = true := (wsOK_collapseGo y).2
  have hok2 : wsOK (pyStrip (collapseWS y)) = true := by
    unfold pyStrip
    apply wsOK_prefix (stripLeft (collapseWS y)) _ (stripRight_prefix_self _)
    exact wsOK_suffix (collapseWS y) _ (stripLeft_suffix _) hok
  show pyStrip (collapseGo false (pyStrip (collapseWS y))) = _
  rw [collapseGo_false_id _ hok2, pyStrip_idem]


/-! ## C3: idempotence of the sanitizer -/

theorem cleanArticleText_ne_nil_eq (t : Str) (h : ¬ t = []) :
    cleanArticleText t = pyStrip (collapseWS (boilerStrip t)) := by
  simp only [cleanArticleText]
  rw [if_neg h]

/-- C3 (amended): `clean_article_text` is idempotent on inputs where the
boilerplate-pattern pass makes no further change to the already-cleaned text.
On such inputs the second application only re-runs whitespace collapsing and
stripping, which are idempotent. The unconditional claim is false: the
boilerplate regexes are applied once each in catalogue order, so a second pass
can remove boilerplate that the first pass re-created by concatenation (see the
counterexample). -/
theorem C3_clean_idempotent (x : Str)
    (h : boilerStrip (cleanArticleText x) = cleanArticleText x) :
    cleanArticleText (cleanArticleText x) = cleanArticleText x := by
  by_cases hy : cleanArticleText x = []
  · rw [hy]
    rfl
  · by_cases hx : x = []
    · rw [hx] at hy
      exact absurd rfl hy
    · rw [cleanArticleText_ne_nil_eq _ hy, h, cleanArticleText_ne_nil_eq _ hx]
      exact strip_collapse_idem (boilerStrip x)

/-- C3 counterexample: the sanitizer is not idempotent in general. On
"Click here Click here to a. to b." the first pass removes the inner
"Click here to a." match, gluing "Click here" onto " to b." and forming a new
match that only the second pass removes: cleaning twice differs from cleaning
once. -/
theorem C3_counterexample :
    cleanArticleText (cleanArticleText c3Bad) ≠ cleanArticleText c3Bad := by
  decide

/-- Witness for C3: a concrete input satisfying the hypothesis. -/
theorem C3_witness :
    cleanArticleText (cleanArticleText (S "Hello world .")) =
      cleanArticleText (S "Hello world .") :=
  C3_clean_idempotent (S "Hello world .") (by decide)

/-! ## Lemmas: Counter / FreqDist characterization (for C8) -/

theorem mem_dedupFirst (x : Str) : ∀ (l : List Str), x ∈ dedupFirst l ↔ x ∈ l := by
  intro l
  induction l with
  | nil => simp [dedupFirst]
  | cons w rest ih =>
    simp only [dedupFirst, List.mem_cons, List.mem_filter, ih, decide_eq_true_eq]
    by_cases hxw : x = w
    · simp [hxw]
    · simp [hxw]

theorem dedupFirst_nodup : ∀ (l : List Str), (dedupFirst l).Nodup := by
  intro l
  induction l with
  | nil => simp [dedupFirst]
  | cons w rest ih =>
    refine List.nodup_cons.mpr ⟨?_, ih.filter _⟩
    intro hmem
    have := (List.mem_filter.mp hmem).2
    simp at this

theorem firstIdx_cons_self (w : Str) (rest : List Str) :
    firstIdx w (w :: rest) = 0 := by
  simp [firstIdx]

theorem firstIdx_cons_ne (w x : Str) (rest : List Str) (h : x ≠ w) :
    firstIdx w (x :: rest) = firstIdx w rest + 1 := by
  simp [firstIdx, h]

theorem dedupFirst_firstIdx_pairwise : ∀ (l : List Str),
    (dedupFirst l).Pairwise (fun a b => firstIdx a l < firstIdx b l) := by
  intro l
  induction l with
  | nil => simp [dedupFirst]
  | cons w rest ih =>
    refine List.pairwise_cons.mpr ⟨?_, ?_⟩
    · intro b hb
      have hbne : b ≠ w := by
        have := (List.mem_filter.mp hb).2
        simpa using this
      rw [firstIdx_cons_self, firstIdx_cons_ne _ _ _ (Ne.symm hbne)]
      exact Nat.succ_pos _
    · have hpw := ih.filter (fun x => decide (x ≠ w))
      refine hpw.imp_of_mem ?_
      intro a b ha hb hab
      have hane : a ≠ w := by have := (List.mem_filter.mp ha).2; simpa using this
      have hbne : b ≠ w := by have := (List.mem_filter.mp hb).2; simpa using this
      rw [firstIdx_cons_ne _ _ _ (Ne.symm hane), firstIdx_cons_ne _ _ _ (Ne.symm hbne)]
      exact Nat.succ_lt_succ hab

theorem dedupFirst_append_singleton (x : Str) : ∀ (l : List Str),
    dedupFirst (l ++ [x]) = if x ∈ l then dedupFirst l else dedupFirst l ++ [x] := by
  intro l
  induction l with
  | nil => simp [dedupFirst]
  | cons w rest ih =>
    show dedupFirst (w :: (rest ++ [x])) = _
    by_cases hx : x ∈ w :: rest
    · rw [if_pos hx]
      rcases List.mem_cons.mp hx with hxw | hxr
      · subst hxw
        show x :: (dedupFirst (rest ++ [x])).filter (fun y => y ≠ x) = _
        by_cases hxr : x ∈ rest
        · rw [ih, if_pos hxr]
          rfl
        · rw [ih, if_neg hxr, List.filter_append]
          simp [dedupFirst]
      · show w :: (dedupFirst (rest ++ [x])).filter (fun y => y ≠ w) = _
        rw [ih, if_pos hxr]
        rfl
    · rw [if_neg hx]
      have hxw : x ≠ w := fun h => hx (h ▸ List.mem_cons_self _ _)
      have hxr : x ∉ rest := fun h => hx (List.mem_cons_of_mem _ h)
      show w :: (dedupFirst (rest ++ [x])).filter (fun y => y ≠ w) = _
      rw [ih, if_neg hxr, List.filter_append]
      simp [dedupFirst, hxw]

theorem bumpCount_step (pre : List Str) (x : Str) :
    bumpCount ((dedupFirst pre).map (fun w => (w, pre.count w))) x =
      (dedupFirst (pre ++ [x])).map (fun w => (w, (pre ++ [x]).count w)) := by
  unfold bumpCount
  by_cases hx : x ∈ pre
  · rw [if_pos, dedupFirst_append_singleton x pre, if_pos hx, List.map_map]
    · apply List.map_congr_left
      intro w hw
      by_cases hwx : w = x
      · subst hwx
        simp [List.count_append]
      · simp [Function.comp, hwx, List.count_append]
    · rw [List.any_eq_true]
      exact ⟨(x, pre.count x),
        List.mem_map.mpr ⟨x, (mem_dedupFirst x pre).mpr hx, rfl⟩, by simp⟩
  · rw [if_neg, dedupFirst_append_singleton x pre, if_neg hx, List.map_append]
    · congr 1
      · apply List.map_congr_left
        intro w hw
        have hwx : w ≠ x := by
          intro h
          exact hx (h ▸ (mem_dedupFirst w pre).mp hw)
        simp [List.count_append, hwx]
      · simp [List.count_append, List.count_eq_zero.mpr hx]
    · simp only [List.any_eq_true, List.mem_map, decide_eq_true_eq, not_exists, not_and]
      rintro p ⟨w, hw, rfl⟩ h
      exact hx (h ▸ (mem_dedupFirst w pre).mp hw)

theorem countsList_go : ∀ (l pre : List Str),
    l.foldl bumpCount ((dedupFirst pre).map (fun w => (w, pre.count w))) =
      (dedupFirst (pre ++ l)).map (fun w => (w, (pre ++ l).count w)) := by
  intro l
  induction l with
  | nil => intro pre; simp
  | cons x l ih =>
    intro pre
    rw [List.foldl_cons, bumpCount_step, ih (pre ++ [x])]
    simp

theorem countsList_eq (l : List Str) :
    countsList l = (dedupFirst l).map (fun w => (w, l.count w)) := by
  have h := countsList_go l []
  simpa [countsList, dedupFirst] using h

theorem mostCommon_keys_spec (F : List Str) (n : Nat) :
    ((mostCommon F n).map Prod.fst).Nodup ∧
    ((mostCommon F n).map Prod.fst).length = min n (dedupFirst F).length ∧
    (∀ w ∈ (mostCommon F n).map Prod.fst, w ∈ F) ∧
    ((mostCommon F n).map Prod.fst).Pairwise (kwRank F) ∧
    (∀ a ∈ (mostCommon F n).map Prod.fst, ∀ b ∈ F,
      b ∉ (mostCommon F n).map Prod.fst → kwRank F a b) := by
  have hCeq : countsList F = (dedupFirst F).map (fun w => (w, F.count w)) :=
    countsList_eq F
  set key : Str × Nat → Int := fun p => (p.2 : Int) with hkeydef
  set pos : Str × Nat → Nat := fun p => firstIdx p.1 F with hposdef
  set srt := stableSortDescBy key (countsList F) with hsrt
  have hperm : srt.Perm (countsList F) := stableSortDescBy_perm key _
  have hCpw : (countsList F).Pairwise (fun p q => pos p < pos q) := by
    rw [hCeq, List.pairwise_map]
    exact dedupFirst_firstIdx_pairwise F
  have hsorted : srt.Pairwise (lexGT key pos) :=
    pairwise_stableSortDescBy key pos _ hCpw
  have hmemC : ∀ p ∈ countsList F, p.2 = F.count p.1 ∧ p.1 ∈ F := by
    intro p hp
    rw [hCeq] at hp
    obtain ⟨w, hw, rfl⟩ := List.mem_map.mp hp
    exact ⟨rfl, (mem_dedupFirst w F).mp hw⟩
  have hmemS : ∀ p ∈ srt, p.2 = F.count p.1 ∧ p.1 ∈ F := by
    intro p hp
    exact hmemC p (hperm.mem_iff.mp hp)
  have hlex_rank : ∀ p ∈ srt, ∀ q ∈ srt, lexGT key pos p q → kwRank F p.1 q.1 := by
    intro p hp q hq hlex
    have hp2 := (hmemS p hp).1
    have hq2 := (hmemS q hq).1
    rcases hlex with h | ⟨h1, h2⟩
    · left
      have : (q.2 : Int) < (p.2 : Int) := h
      rw [hp2, hq2] at this
      exact_mod_cast this
    · right
      constructor
      · have : (p.2 : Int) = (q.2 : Int) := h1
        rw [hp2, hq2] at this
        exact_mod_cast this
      · exact h2
  have hmc : mostCommon F n = srt.take n := rfl
  have htk_mem : ∀ p ∈ srt.take n, p ∈ srt :=
    fun p hp => (List.take_sublist n srt).mem hp
  refine ⟨?_, ?_, ?_, ?_, ?_⟩
  · -- Nodup
    have hkeysC : (countsList F).map Prod.fst = dedupFirst F := by
      rw [hCeq, List.map_map]
      exact List.map_id _
    have hpermk : (srt.map Prod.fst).Perm (dedupFirst F) := by
      rw [← hkeysC]
      exact hperm.map _
    have hnodup_s : (srt.map Prod.fst).Nodup :=
      hpermk.nodup_iff.mpr (dedupFirst_nodup F)
    have hsub : ((srt.take n).map Prod.fst).Sublist (srt.map Prod.fst) :=
      (List.take_sublist n srt).map _
    rw [hmc]
    exact hnodup_s.sublist hsub
  · -- length
    rw [hmc, List.length_map, List.length_take]
    have : srt.length = (dedupFirst F).length := by
      rw [hperm.length_eq, hCeq, List.length_map]
    rw [this]
  · -- membership
    intro w hw
    rw [hmc] at hw
    obtain ⟨p, hp, rfl⟩ := List.mem_map.mp hw
    exact (hmemS p (htk_mem p hp)).2
  · -- pairwise ranking
    rw [hmc, List.pairwise_map]
    have htk_pw : (srt.take n).Pairwise (lexGT key pos) :=
      hsorted.sublist (List.take_sublist n srt)
    refine htk_pw.imp_of_mem ?_
    intro p q hp hq hlex
    exact hlex_rank p (htk_mem p hp) q (htk_mem q hq) hlex
  · -- maximality
    intro a ha b hbF hbnot
    rw [hmc] at ha hbnot
    obtain ⟨p, hp, rfl⟩ := List.mem_map.mp ha
    have hbC : (b, F.count b) ∈ countsList F := by
      rw [hCeq]
      exact List.mem_map_of_mem _ ((mem_dedupFirst b F).mpr hbF)
    have hbS : (b, F.count b) ∈ srt := hperm.mem_iff.mpr hbC
    have : (b, F.count b) ∈ srt.take n ∨ (b, F.count b) ∈ srt.drop n := by
      have hx := List.take_append_drop n srt
      rw [← hx] at hbS
      exact List.mem_append.mp hbS
    rcases this with hin | hdrop
    · exact absurd (List.mem_map_of_mem Prod.fst hin) hbnot
    · have hlex := pairwise_take_drop hsorted n p hp (b, F.count b) hdrop
      have hbmem : (b, F.count b) ∈ srt := hbS
      exact hlex_rank p (htk_mem p hp) (b, F.count b) hbmem hlex


/-- C8 (amended): `extract_keywords` lowercases the text, strips characters
that are neither word characters (`\w`: alphanumerics and underscore) nor
whitespace, tokenizes (NLTK when available, whitespace split otherwise),
discards stopwords and tokens of length ≤ 2, and returns the `n` most frequent
remaining tokens: distinct, each drawn from the filtered tokens, `min n
(number of distinct tokens)` many, ordered by descending frequency with ties
broken by first-occurrence order, and every selected token ranking at least as
high as every unselected one. The claim's "strips non-alphanumeric/non-space
characters" is inexact: the source's `[^\w\s]` keeps underscores (see the
counterexample). -/
theorem C8_keyword_frequency_ranking (wordTok : Str → Option (List Str))
    (stopW : Option (List Str)) (text : Str) (n : Nat) :
    extractKeywords wordTok stopW text n =
      (mostCommon (kwFiltered wordTok stopW text) n).map Prod.fst ∧
    (extractKeywords wordTok stopW text n).Nodup ∧
    (extractKeywords wordTok stopW text n).length =
      min n (dedupFirst (kwFiltered wordTok stopW text)).length ∧
    (∀ w ∈ extractKeywords wordTok stopW text n, w ∈ kwFiltered wordTok stopW text) ∧
    (extractKeywords wordTok stopW text n).Pairwise
      (kwRank (kwFiltered wordTok stopW text)) ∧
    (∀ a ∈ extractKeywords wordTok stopW text n,
      ∀ b ∈ kwFiltered wordTok stopW text,
      b ∉ extractKeywords wordTok stopW text n →
      kwRank (kwFiltered wordTok stopW text) a b) := by
  have heq : extractKeywords wordTok stopW text n =
      (mostCommon (kwFiltered wordTok stopW text) n).map Prod.fst := rfl
  obtain ⟨h1, h2, h3, h4, h5⟩ := mostCommon_keys_spec (kwFiltered wordTok stopW text) n
  rw [heq]
  exact ⟨rfl, h1, h2, h3, h4, h5⟩

/-- C8 counterexample: the source keeps underscores (regex `\w`), the claim's
"strips non-alphanumeric" pipeline does not. On "x_y x_y qqq" the source
returns the keyword "x_y"; stripping underscores leaves the 2-letter token
"xy", which the length filter then discards. -/
theorem C8_counterexample :
    extractKeywords noTok none (S "x_y x_y qqq") 8 ≠
      specKeywordsC8 noTok none (S "x_y x_y qqq") 8 := by
  decide

/-! ## C7: the no-content sentinel -/

/-- C7 (amended): if the input text is empty or shorter than 20 characters,
`summarize_text` returns exactly the sentinel "No article content available to
summarize."; in particular the empty string does. The claim's "if and only if"
is too strong: a text of 20 or more characters can also produce the sentinel —
feeding the 42-character sentinel string itself back in reproduces it (see the
counterexample). -/
theorem C7_short_input_sentinel (sentTok wordTok : Str → Option (List Str))
    (stopW : Option (List Str)) (text titleText : Str)
    (h : text = [] ∨ text.length < 20) :
    summarizeText sentTok wordTok stopW text titleText = sentinelNoContent := by
  have hc : (text = [] || decide (text.length < 20)) = true := by
    rcases h with h | h
    · simp [h]
    · simp [h]
  unfold summarizeText
  rw [if_pos hc]

/-- Witness for C7: the empty input yields the sentinel. -/
theorem C7_witness :
    summarizeText noTok noTok none (S "") (S "") = sentinelNoContent :=
  C7_short_input_sentinel noTok noTok none (S "") (S "") (Or.inl rfl)

/-- C7 counterexample: the sentinel string itself is 42 ≥ 20 characters long,
yet summarizing it returns the sentinel, refuting the "only if" direction of
the claim. -/
theorem C7_counterexample :
    20 ≤ (S "No article content available to summarize.").length ∧
    summarizeText noTok noTok none
        (S "No article content available to summarize.") (S "") =
      sentinelNoContent := by
  refine ⟨by decide, ?_⟩
  rfl

/-! ## Witnesses and counterexamples for C1, C4, C5, C6, C10 -/

/-- Witness for C1 at a concrete title. -/
theorem C1_witness : enhanceTitle (S "Apple Reports Record Earnings") 75 ≠ [] :=
  C1_enhanceTitle_nonempty (S "Apple Reports Record Earnings") (by decide)

/-- C1 counterexample: a non-empty title made only of a ticker annotation is
normalized to the empty string, and `enhance_title` returns it: the result is
empty (falsy) for a non-empty input. -/
theorem C1_counterexample :
    S "(NASDAQ:NVDA)" ≠ [] ∧ enhanceTitle (S "(NASDAQ:NVDA)") 75 = [] := by
  refine ⟨by decide, ?_⟩
  rfl

/-- Witness for C4 at `c4Title`. -/
theorem C4_witness :
    enhanceTitle c4Title 75 =
      (if (splitFirst (normalizeTitle c4Title) (S " - ")).1.length ≥ 30 ∧
          (splitFirst (normalizeTitle c4Title) (S " - ")).1.count ' ' ≥ 3
       then (splitFirst (normalizeTitle c4Title) (S " - ")).1
       else (splitFirst (normalizeTitle c4Title) (S " - ")).2) :=
  C4_dash_keeps_first_substantial c4Title (by decide) (by rfl) (by decide)
    (by decide)

/-- C4 counterexample: on `c4Title` both dash sides are substantial and the
second is strictly longer, yet `enhance_title` keeps the first: the code keeps
the FIRST substantial side, not the longer one. -/
theorem C4_counterexample :
    enhanceTitle c4Title 75 = S "Abcdef fghij klmno pqrst uvwxy" ∧
    (S "Abcdef fghij klmno pqrst uvwxy").length <
      (splitFirst (normalizeTitle c4Title) (S " - ")).2.length ∧
    (splitFirst (normalizeTitle c4Title) (S " - ")).2.length ≥ 30 ∧
    (splitFirst (normalizeTitle c4Title) (S " - ")).2.count ' ' ≥ 3 := by
  refine ⟨?_, by decide, by decide, by decide⟩
  rfl

/-- Witness for C5: with an empty title the override predicate is false and
the selection is exactly the spec's top-k. -/
theorem C5_witness :
    extractImportantSentences noTok ceText ceKws 4 (S "") =
      specSelection noTok ceText ceKws 4 (S "") :=
  (C5_selection_topk noTok ceText ceKws 4 (S "") (by decide)).1

/-- C5 counterexample: on `ceText` with the low-overlap title "Qqq rrr" the
first-sentence override fires and the returned list is NOT the top-4 by score:
the opening sentence replaces the lowest-scoring selected one. -/
theorem C5_counterexample :
    extractImportantSentences noTok ceText ceKws 4 (S "Qqq rrr") ≠
      specSelection noTok ceText ceKws 4 (S "Qqq rrr") := by
  decide

/-- Witness for C6 at `ceText` with the low-overlap title "Qqq rrr". -/
theorem C6_witness :
    ∃ idxs, selectionOf noTok ceText ceKws 4 (S "Qqq rrr")
        = Except.ok idxs ∧ 0 ∈ idxs ∧
      extractImportantSentences noTok ceText ceKws 4 (S "Qqq rrr")
        = idxs.map (fun i => punctuate ((sentencesOf noTok ceText).getD i [])) ∧
      punctuate ((sentencesOf noTok ceText).headD [])
        ∈ extractImportantSentences noTok ceText ceKws 4 (S "Qqq rrr") :=
  C6_first_sentence_forced noTok ceText ceKws 4 (S "Qqq rrr") (by decide)
    (by decide)

/-- C6 counterexample: with the default EMPTY title the override is skipped
(`title_words` is falsy), so an opening sentence with ≥ 5 words that is outside
the top selection is NOT forced in, refuting "including the default empty
title". -/
theorem C6_counterexample :
    (topIndices (sentenceScores (sentencesOf noTok ceText) ceKws
        (wordSetOf (lowerS (S "")))) 4).contains 0 = false ∧
    5 ≤ (splitWS ((sentencesOf noTok ceText).headD [])).length ∧
    punctuate ((sentencesOf noTok ceText).headD []) ∉
      extractImportantSentences noTok ceText ceKws 4 (S "") := by
  decide

/-- Witness for C10 at `w10Text`, index 2. -/
theorem C10_witness :
    (sentenceScores (sentencesOf noTok w10Text) []
        (wordSetOf (lowerS (S "")))).lookup 2 = none ∧
    ∀ idxs, selectionOf noTok w10Text [] 3 (S "") = Except.ok idxs →
      2 ∉ idxs :=
  C10_unscored_never_selected noTok w10Text [] 3 (S "") 2
    (S "Candle wick burns bright tonight okay.")
    (by decide) (by decide) (by decide) (by decide) (by decide) (by decide)
    (by decide)

/-! ## Lemmas: well-formed summaries (for C2) -/

theorem isSuffixOf_concat_self (u : Str) (c : Char) :
    List.isSuffixOf [c] (u ++ [c]) = true :=
  List.isSuffixOf_iff_suffix.mpr ⟨u, rfl⟩

theorem isSuffixOf_concat_ne (u : Str) (c d : Char) (h : d ≠ c) :
    List.isSuffixOf [d] (u ++ [c]) = false := by
  by_contra hne
  have hb : List.isSuffixOf [d] (u ++ [c]) = true := by
    cases hx : List.isSuffixOf [d] (u ++ [c])
    · exact absurd hx hne
    · rfl
  obtain ⟨t, ht⟩ := List.isSuffixOf_iff_suffix.mp hb
  have := congrArg List.getLast? ht
  rw [List.getLast?_concat, List.getLast?_concat] at this
  exact h (Option.some.inj this)

theorem endsPunct_concat (u : Str) (c : Char) :
    endsPunct (u ++ [c]) = punctChar c := by
  unfold endsPunct endsWithAny endsWithS punctChar
  simp only [List.any_cons, List.any_nil, Bool.or_false]
  rw [show S "." = ['.'] from rfl, show S "!" = ['!'] from rfl,
     show S "?" = ['?'] from rfl]
  by_cases h1 : c = '.'
  · subst h1
    rw [isSuffixOf_concat_self]
    simp
  · rw [isSuffixOf_concat_ne u c '.' (Ne.symm h1)]
    by_cases h2 : c = '!'
    · subst h2
      rw [isSuffixOf_concat_self]
      simp
    · rw [isSuffixOf_concat_ne u c '!' (Ne.symm h2)]
      by_cases h3 : c = '?'
      · subst h3
        rw [isSuffixOf_concat_self]
        simp
      · rw [isSuffixOf_concat_ne u c '?' (Ne.symm h3)]
        simp [h1, h2, h3]

theorem endsPunct_elim (s : Str) (h : endsPunct s = true) :
    ∃ u c, s = u ++ [c] ∧ punctChar c = true := by
  unfold endsPunct endsWithAny endsWithS at h
  simp only [List.any_cons, List.any_nil, Bool.or_false, Bool.or_eq_true] at h
  rcases h with h | h | h
  all_goals {
    obtain ⟨t, ht⟩ := List.isSuffixOf_iff_suffix.mp h
    exact ⟨t, _, ht.symm, by decide⟩
  }

theorem punctChar_not_space (c : Char) (h : punctChar c = true) :
    pyIsSpace c = false := by
  unfold punctChar at h
  simp only [Bool.or_eq_true, decide_eq_true_eq] at h
  rcases h with (h | h) | h <;> subst h <;> decide

theorem hasNonWS_append (u v : Str) :
    hasNonWS (u ++ v) = (hasNonWS u || hasNonWS v) := by
  unfold hasNonWS
  exact List.any_append

theorem endsPunct_hasNonWS (s : Str) (h : endsPunct s = true) :
    hasNonWS s = true := by
  obtain ⟨u, c, rfl, hc⟩ := endsPunct_elim s h
  rw [hasNonWS_append]
  have : hasNonWS [c] = true := by
    unfold hasNonWS
    simp [punctChar_not_space c hc]
  simp [this]

theorem hasNonWS_collapseGo (s : Str) : ∀ b, hasNonWS (collapseGo b s) = hasNonWS s := by
  induction s with
  | nil => intro b; rfl
  | cons c rest ih =>
    intro b
    unfold collapseGo
    by_cases hc : pyIsSpace c = true
    · rw [if_pos hc]
      have hlhs : hasNonWS (c :: rest) = hasNonWS rest := by
        unfold hasNonWS
        simp [hc]
      cases b
      · simp only [Bool.false_eq_true, if_false]
        rw [hlhs]
        have : hasNonWS (' ' :: collapseGo true rest) = hasNonWS (collapseGo true rest) := by
          unfold hasNonWS
          simp [pyIsSpace]
        rw [this, ih true]
      · simp only [if_true]
        rw [hlhs, ih true]
    · rw [if_neg hc]
      unfold hasNonWS
      simp only [List.any_cons]
      have := ih false
      unfold hasNonWS at this
      rw [this]

theorem hasNonWS_dropWhile (s : Str) :
    hasNonWS (s.dropWhile pyIsSpace) = hasNonWS s := by
  induction s with
  | nil => rfl
  | cons c rest ih =>
    rw [List.dropWhile_cons]
    by_cases hc : pyIsSpace c = true
    · rw [if_pos hc, ih]
      unfold hasNonWS
      simp [hc]
    · rw [if_neg hc]

theorem hasNonWS_reverse (s : Str) : hasNonWS s.reverse = hasNonWS s := by
  unfold hasNonWS
  exact List.any_reverse

theorem hasNonWS_pyStrip (s : Str) : hasNonWS (pyStrip s) = hasNonWS s := by
  unfold pyStrip stripRight stripLeft
  rw [hasNonWS_reverse, hasNonWS_dropWhile, hasNonWS_reverse, hasNonWS_dropWhile]

theorem hasNonWS_ne_nil (s : Str) (h : hasNonWS s = true) : s ≠ [] := by
  intro hnil
  subst hnil
  cases h

theorem strip_collapse_ne_nil (s : Str) (h : hasNonWS s = true) :
    pyStrip (collapseWS s) ≠ [] := by
  apply hasNonWS_ne_nil
  rw [hasNonWS_pyStrip]
  unfold collapseWS
  rw [hasNonWS_collapseGo]
  exact h

theorem collapseGo_concat_nonws (c : Char) (hc : pyIsSpace c = false) :
    ∀ (u : Str) (b : Bool), ∃ v, collapseGo b (u ++ [c]) = v ++ [c] := by
  intro u
  induction u with
  | nil =>
    intro b
    refine ⟨[], ?_⟩
    rw [List.nil_append]
    show collapseGo b [c] = [c]
    cases b <;> simp [collapseGo, hc]
  | cons d u ih =>
    intro b
    show ∃ v, collapseGo b (d :: (u ++ [c])) = v ++ [c]
    unfold collapseGo
    by_cases hd : pyIsSpace d = true
    · rw [if_pos hd]
      cases b
      · simp only [Bool.false_eq_true, if_false]
        obtain ⟨v, hv⟩ := ih true
        exact ⟨' ' :: v, by rw [hv]; rfl⟩
      · simp only [if_true]
        exact ih true
    · rw [if_neg hd]
      obtain ⟨v, hv⟩ := ih false
      exact ⟨d :: v, by rw [hv]; rfl⟩

theorem dropWhile_concat_nonws (c : Char) (hc : pyIsSpace c = false) :
    ∀ (u : Str), ∃ v, (u ++ [c]).dropWhile pyIsSpace = v ++ [c] := by
  intro u
  induction u with
  | nil =>
    refine ⟨[], ?_⟩
    rw [List.nil_append, List.dropWhile_cons, if_neg (by simp [hc])]
  | cons d u ih =>
    show ∃ v, (d :: (u ++ [c])).dropWhile pyIsSpace = v ++ [c]
    rw [List.dropWhile_cons]
    by_cases hd : pyIsSpace d = true
    · rw [if_pos hd]
      exact ih
    · rw [if_neg hd]
      exact ⟨d :: u, rfl⟩

theorem stripRight_concat_nonws (c : Char) (hc : pyIsSpace c = false) (u : Str) :
    stripRight (u ++ [c]) = u ++ [c] := by
  unfold stripRight
  have h1 : (u ++ [c]).reverse = c :: u.reverse := by
    rw [List.reverse_append]
    rfl
  rw [h1, List.dropWhile_cons, if_neg (by simp [hc]), ← h1, List.reverse_reverse]

theorem pyStrip_concat_nonws (c : Char) (hc : pyIsSpace c = false) (u : Str) :
    ∃ v, pyStrip (u ++ [c]) = v ++ [c] := by
  unfold pyStrip stripLeft
  obtain ⟨v, hv⟩ := dropWhile_concat_nonws c hc u
  rw [hv, stripRight_concat_nonws c hc v]
  exact ⟨v, rfl⟩

theorem strip_collapse_good (s : Str) (h2 : endsPunct s = true) :
    goodSummary (pyStrip (collapseWS s)) := by
  obtain ⟨u, c, rfl, hc⟩ := endsPunct_elim s h2
  have hcs := punctChar_not_space c hc
  unfold collapseWS
  obtain ⟨v, hv⟩ := collapseGo_concat_nonws c hcs u false
  rw [hv]
  obtain ⟨w, hw⟩ := pyStrip_concat_nonws c hcs v
  rw [hw]
  exact ⟨by simp, by rw [endsPunct_concat]; exact hc⟩

theorem joinSp_hasNonWS : ∀ (l : List Str), l ≠ [] →
    (∀ s ∈ l, hasNonWS s = true) → hasNonWS (joinSp l) = true := by
  intro l
  match l with
  | [] => intro h; exact absurd rfl h
  | [x] =>
    intro _ hall
    exact hall x (by simp)
  | x :: y :: t =>
    intro _ hall
    show hasNonWS (x ++ ' ' :: joinSp (y :: t)) = true
    rw [hasNonWS_append]
    simp [hall x (by simp)]

theorem subDotDot_ne_nil (s : Str) (h : s ≠ []) : subDotDot s ≠ [] := by
  match s with
  | [] => exact absurd rfl h
  | [c] => simp [subDotDot]
  | c :: d :: rest =>
    unfold subDotDot
    by_cases hcd : (c = '.' && d = '.') = true
    · rw [if_pos hcd]
      simp
    · rw [if_neg hcd]
      simp

theorem punctuate_hasNonWS (s : Str) : hasNonWS (punctuate s) = true := by
  unfold punctuate
  by_cases hp : endsPunct (pyStrip s) = true
  · rw [if_neg (by simp [hp])]
    have h1 : hasNonWS (pyStrip s) = true := endsPunct_hasNonWS _ hp
    rw [hasNonWS_pyStrip] at h1
    exact h1
  · rw [if_pos (by simp [Bool.not_eq_true] at hp ⊢; exact hp)]
    rw [hasNonWS_append]
    have : hasNonWS (S ".") = true := by decide
    simp [this]

theorem formatSummary_good (l : List Str) (hall : ∀ s ∈ l, hasNonWS s = true) :
    goodSummary (formatSummary l) := by
  unfold formatSummary
  by_cases hl : l = []
  · rw [if_pos hl]
    exact ⟨by decide, by decide⟩
  · rw [if_neg hl]
    have hj : hasNonWS (joinSp l) = true := joinSp_hasNonWS l hl hall
    have hst : hasNonWS (pyStrip (collapseWS (joinSp l))) = true := by
      rw [hasNonWS_pyStrip]
      unfold collapseWS
      rw [hasNonWS_collapseGo]
      exact hj
    dsimp only
    cases ht : pyStrip (collapseWS (joinSp l)) with
    | nil =>
      rw [ht] at hst
      cases hst
    | cons c rest =>
      dsimp only
      have hXne : subDotDot (if c.isLower then c.toUpper :: rest else c :: rest) ≠ [] := by
        apply subDotDot_ne_nil
        by_cases hcl : c.isLower
        · rw [if_pos hcl]
          simp
        · rw [if_neg hcl]
          simp
      by_cases hcond :
          (subDotDot (if c.isLower then c.toUpper :: rest else c :: rest) ≠ [] &&
            !endsPunct (subDotDot (if c.isLower then c.toUpper :: rest else c :: rest))) = true
      · rw [if_pos hcond]
        constructor
        · simp [show S "." = ['.'] from rfl]
        · rw [show S "." = ['.'] from rfl, endsPunct_concat]
          decide
      · rw [if_neg hcond]
        refine ⟨hXne, ?_⟩
        cases hep : endsPunct (subDotDot (if c.isLower then c.toUpper :: rest else c :: rest)) with
        | true => rfl
        | false =>
          exfalso
          apply hcond
          rw [hep]
          simp [hXne]

theorem pyFindFrom_go_spec (sub : Str) :
    ∀ (t : Str) (j : Nat) (i : Int), pyFindFrom.go sub t j = i → 0 ≤ i →
      ∃ k, i = ((j + k : Nat) : Int) ∧ sub.isPrefixOf (t.drop k) = true := by
  intro t
  induction t with
  | nil =>
    intro j i h hge
    unfold pyFindFrom.go at h
    by_cases hp : sub.isPrefixOf ([] : Str) = true
    · rw [if_pos hp] at h
      exact ⟨0, by omega, by simpa using hp⟩
    · rw [if_neg hp] at h
      subst h
      exact absurd hge (by norm_num)
  | cons c rest ih =>
    intro j i h hge
    unfold pyFindFrom.go at h
    by_cases hp : sub.isPrefixOf (c :: rest) = true
    · rw [if_pos hp] at h
      exact ⟨0, by omega, by simpa using hp⟩
    · rw [if_neg hp] at h
      obtain ⟨k, hk1, hk2⟩ := ih (j + 1) i h hge
      exact ⟨k + 1, by omega, by simpa using hk2⟩

theorem pyFindFrom_spec (s sub : Str) (f : Nat) (i : Int)
    (h : pyFindFrom s sub f = i) (hge : 0 ≤ i) :
    f ≤ i.toNat ∧ sub.isPrefixOf (s.drop i.toNat) = true := by
  unfold pyFindFrom at h
  obtain ⟨k, hk1, hk2⟩ := pyFindFrom_go_spec sub (s.drop f) f i h hge
  have hi : i.toNat = f + k := by omega
  rw [List.drop_drop] at hk2
  constructor
  · omega
  · rw [hi]
    exact hk2

theorem pyRfind_go_spec (sub : Str) :
    ∀ (t : Str) (j : Nat) (best i : Int), pyRfind.go sub t j best = i →
      i = best ∨ ∃ k, i = ((j + k : Nat) : Int) ∧ sub.isPrefixOf (t.drop k) = true := by
  intro t
  induction t with
  | nil =>
    intro j best i h
    unfold pyRfind.go at h
    dsimp only at h
    by_cases hp : sub.isPrefixOf ([] : Str) = true
    · rw [if_pos hp] at h
      right
      exact ⟨0, by omega, by simpa using hp⟩
    · rw [if_neg hp] at h
      left
      exact h.symm
  | cons c rest ih =>
    intro j best i h
    unfold pyRfind.go at h
    dsimp only at h
    by_cases hp : sub.isPrefixOf (c :: rest) = true
    · rw [if_pos hp] at h
      rcases ih (j + 1) (j : Int) i h with h1 | ⟨k, hk1, hk2⟩
      · right
        exact ⟨0, by omega, by simpa using hp⟩
      · right
        exact ⟨k + 1, by omega, by simpa using hk2⟩
    · rw [if_neg hp] at h
      rcases ih (j + 1) best i h with h1 | ⟨k, hk1, hk2⟩
      · left
        exact h1
      · right
        exact ⟨k + 1, by omega, by simpa using hk2⟩

theorem pyRfind_spec (s sub : Str) (i : Int)
    (h : pyRfind s sub = i) (hge : 0 ≤ i) :
    sub.isPrefixOf (s.drop i.toNat) = true := by
  unfold pyRfind at h
  rcases pyRfind_go_spec sub s 0 (-1) i h with h1 | ⟨k, hk1, hk2⟩
  · subst h1
    exact absurd hge (by norm_num)
  · have : i.toNat = k := by omega
    rw [this]
    exact hk2

/-- If `sub` starts with `'.'` and is a prefix of `s.drop k`, then `s` has a
`'.'` at index `k`. -/
theorem dot_at_of_prefix (s : Str) (k : Nat)
    (h : List.isPrefixOf ['.'] (s.drop k) = true) : s.get? k = some '.' := by
  have hpre : ['.'] <+: s.drop k := by
    rw [← List.isPrefixOf_iff_prefix]
    exact h
  obtain ⟨t, ht⟩ := hpre
  have : (s.drop k).get? 0 = some '.' := by
    rw [← ht]
    rfl
  rw [List.get?_drop] at this
  simpa using this

/-- Taking up to an index holding `'.'` produces a punctuated non-empty
string. -/
theorem take_dot_good (s : Str) (k : Nat) (h : s.get? k = some '.') :
    goodSummary (s.take (k + 1)) := by
  have hlt : k < s.length := by
    by_contra hge
    push_neg at hge
    rw [List.get?_eq_none.mpr hge] at h
    cases h
  have h2 : s[k]? = some '.' := by
    rw [← List.get?_eq_getElem?]
    exact h
  rw [List.take_succ, h2]
  constructor
  · simp
  · show endsPunct (s.take k ++ ['.']) = true
    rw [endsPunct_concat]
    decide

theorem goodSummary_append_left (A t : Str) (h : goodSummary t) :
    goodSummary (A ++ t) := by
  obtain ⟨hne, hep⟩ := h
  obtain ⟨u, c, rfl, hc⟩ := endsPunct_elim _ hep
  rw [← List.append_assoc]
  constructor
  · simp
  · rw [endsPunct_concat]
    exact hc

theorem ellipsisFix_good (text summary : Str) (hg : goodSummary summary) :
    goodSummary (ellipsisFix text summary) := by
  unfold ellipsisFix
  by_cases hell : endsWithS summary (S "...") = true
  · rw [if_pos hell]
    dsimp only
    by_cases hguard :
        10 * pyRfind (summary.take (summary.length - 3)) (S ".") >
          7 * (summary.length : Int)
    · rw [if_pos hguard]
      have hge : 0 ≤ pyRfind (summary.take (summary.length - 3)) (S ".") := by
        have h7 : (0 : Int) ≤ (summary.length : Int) := Int.natCast_nonneg _
        omega
      have hpre := pyRfind_spec (summary.take (summary.length - 3)) (S ".") _ rfl hge
      have hdot : (summary.take (summary.length - 3)).get?
          (pyRfind (summary.take (summary.length - 3)) (S ".")).toNat = some '.' :=
        dot_at_of_prefix _ _ hpre
      have hlt : (pyRfind (summary.take (summary.length - 3)) (S ".")).toNat <
          summary.length - 3 := by
        obtain ⟨hl, -⟩ := List.get?_eq_some.mp hdot
        rw [List.length_take] at hl
        omega
      have hdot2 : summary.get?
          (pyRfind (summary.take (summary.length - 3)) (S ".")).toNat = some '.' := by
        rw [← List.get?_take hlt]
        exact hdot
      exact take_dot_good summary _ hdot2
    · rw [if_neg hguard]
      by_cases hplne :
          (summary.take (summary.length - 3)).drop
            (pyRfind summary (S ". ") + 2).toNat ≠ []
      · rw [if_pos hplne]
        by_cases hss : pyFind text ((summary.take (summary.length - 3)).drop
            (pyRfind summary (S ". ") + 2).toNat) ≥ 0
        · rw [if_pos hss]
          by_cases hE0 : pyFindFrom text (S ".")
              ((pyFind text ((summary.take (summary.length - 3)).drop
                (pyRfind summary (S ". ") + 2).toNat)).toNat +
               ((summary.take (summary.length - 3)).drop
                (pyRfind summary (S ". ") + 2).toNat).length) > 0
          · rw [if_pos hE0]
            obtain ⟨hfrom, hpreE⟩ := pyFindFrom_spec text (S ".") _ _ rfl (le_of_lt hE0)
            have hdotE := dot_at_of_prefix text _ hpreE
            apply goodSummary_append_left
            have hStle : (pyFind text ((summary.take (summary.length - 3)).drop
                (pyRfind summary (S ". ") + 2).toNat)).toNat <
                (pyFindFrom text (S ".")
                  ((pyFind text ((summary.take (summary.length - 3)).drop
                    (pyRfind summary (S ". ") + 2).toNat)).toNat +
                   ((summary.take (summary.length - 3)).drop
                    (pyRfind summary (S ". ") + 2).toNat).length)).toNat := by
              have hlen1 : 1 ≤ ((summary.take (summary.length - 3)).drop
                  (pyRfind summary (S ". ") + 2).toNat).length := by
                cases hx : (summary.take (summary.length - 3)).drop
                    (pyRfind summary (S ". ") + 2).toNat with
                | nil => exact absurd hx hplne
                | cons a b => simp [hx]
              omega
            rw [List.drop_take]
            have harith : (pyFindFrom text (S ".")
                  ((pyFind text ((summary.take (summary.length - 3)).drop
                    (pyRfind summary (S ". ") + 2).toNat)).toNat +
                   ((summary.take (summary.length - 3)).drop
                    (pyRfind summary (S ". ") + 2).toNat).length)).toNat + 1 -
                (pyFind text ((summary.take (summary.length - 3)).drop
                  (pyRfind summary (S ". ") + 2).toNat)).toNat =
                ((pyFindFrom text (S ".")
                  ((pyFind text ((summary.take (summary.length - 3)).drop
                    (pyRfind summary (S ". ") + 2).toNat)).toNat +
                   ((summary.take (summary.length - 3)).drop
                    (pyRfind summary (S ". ") + 2).toNat).length)).toNat -
                 (pyFind text ((summary.take (summary.length - 3)).drop
                   (pyRfind summary (S ". ") + 2).toNat)).toNat) + 1 := by
              omega
            rw [harith]
            apply take_dot_good
            rw [List.get?_drop]
            rw [show (pyFind text ((summary.take (summary.length - 3)).drop
                  (pyRfind summary (S ". ") + 2).toNat)).toNat +
                ((pyFindFrom text (S ".")
                  ((pyFind text ((summary.take (summary.length - 3)).drop
                    (pyRfind summary (S ". ") + 2).toNat)).toNat +
                   ((summary.take (summary.length - 3)).drop
                    (pyRfind summary (S ". ") + 2).toNat).length)).toNat -
                 (pyFind text ((summary.take (summary.length - 3)).drop
                   (pyRfind summary (S ". ") + 2).toNat)).toNat) =
                (pyFindFrom text (S ".")
                  ((pyFind text ((summary.take (summary.length - 3)).drop
                    (pyRfind summary (S ". ") + 2).toNat)).toNat +
                   ((summary.take (summary.length - 3)).drop
                    (pyRfind summary (S ". ") + 2).toNat).length)).toNat from by omega]
            exact hdotE
          · rw [if_neg hE0]
            exact hg
        · rw [if_neg hss]
          exact hg
      · rw [if_neg hplne]
        exact hg
  · rw [if_neg hell]
    exact hg

theorem fallbackExtract_hasNonWS (text : Str) :
    ∀ s ∈ fallbackExtract text, hasNonWS s = true := by
  intro s hs
  unfold fallbackExtract at hs
  split at hs
  · dsimp only at hs
    split at hs
    · rename_i hfp
      simp only [List.mem_singleton] at hs
      subst hs
      simp only [Bool.and_eq_true, decide_eq_true_eq] at hfp
      have hge : (0 : Int) ≤ pyFind text (S ".") := by omega
      obtain ⟨-, hpre⟩ := pyFindFrom_spec text (S ".") 0 _ rfl hge
      have hdot := dot_at_of_prefix text _ hpre
      exact endsPunct_hasNonWS _ (take_dot_good text _ hdot).2
    · simp only [List.mem_singleton] at hs
      subst hs
      rw [hasNonWS_append]
      have hd : hasNonWS (S "...") = true := by decide
      simp [hd]
  · simp only [List.mem_singleton] at hs
    subst hs
    decide


/-! ## C2: `summarize_text` always yields a punctuated, non-empty summary -/

theorem extract_hasNonWS (sentTok : Str → Option (List Str)) (text : Str)
    (keywords : List Str) (k : Nat) (titleText : Str) :
    ∀ s ∈ extractImportantSentences sentTok text keywords k titleText,
      hasNonWS s = true := by
  intro s hs
  unfold extractImportantSentences at hs
  cases hsel : selectionOf sentTok text keywords k titleText with
  | ok idxs =>
    rw [hsel] at hs
    dsimp only at hs
    obtain ⟨i, hi, rfl⟩ := List.mem_map.mp hs
    exact punctuate_hasNonWS _
  | error e =>
    rw [hsel] at hs
    dsimp only at hs
    exact fallbackExtract_hasNonWS text s hs

theorem redundancyAdjust_hasNonWS (sentTok : Str → Option (List Str))
    (ctext titleText : Str) (kws : List Str) :
    ∀ s ∈ redundancyAdjust sentTok ctext titleText kws, hasNonWS s = true := by
  intro s hs
  unfold redundancyAdjust at hs
  have h4 := extract_hasNonWS sentTok ctext kws 4 titleText
  have h5 := extract_hasNonWS sentTok ctext kws 5 titleText
  dsimp only at hs
  split at hs
  · split at hs
    · split at hs
      · exact h4 s (List.mem_of_mem_tail hs)
      · split at hs
        · rename_i s0 hfind
          simp only [List.mem_singleton] at hs
          subst hs
          exact h5 s (List.mem_of_find?_eq_some hfind)
        · exact h4 s hs
    · exact h4 s hs
  · exact h4 s hs

theorem summaryCore_good (sentTok : Str → Option (List Str))
    (ctext titleText : Str) (kws : List Str) :
    goodSummary (summaryCore sentTok ctext titleText kws) := by
  unfold summaryCore
  dsimp only
  apply ellipsisFix_good
  split
  · exact formatSummary_good _ (extract_hasNonWS sentTok ctext kws 6 titleText)
  · exact strip_collapse_good _
      (formatSummary_good _ (redundancyAdjust_hasNonWS sentTok ctext titleText kws)).2

theorem summarizeText_good (sentTok wordTok : Str → Option (List Str))
    (stopW : Option (List Str)) (text titleText : Str)
    (htok : ∀ s, (sentTok s).isSome = true) :
    goodSummary (summarizeText sentTok wordTok stopW text titleText) := by
  unfold summarizeText
  split
  · exact ⟨by decide, by decide⟩
  · dsimp only
    have hcore := summaryCore_good sentTok (cleanArticleText text) titleText
      (extractKeywords wordTok stopW (cleanArticleText text) 8)
    obtain ⟨sents, hsents⟩ :=
      Option.isSome_iff_exists.mp (htok (cleanArticleText text))
    rw [hsents]
    dsimp only
    have haltg := formatSummary_good
      (extractImportantSentences sentTok (joinSp (sents.drop 2))
        (extractKeywords wordTok stopW (joinSp (sents.drop 2)) 8) 4 (S ""))
      (extract_hasNonWS sentTok (joinSp (sents.drop 2))
        (extractKeywords wordTok stopW (joinSp (sents.drop 2)) 8) 4 (S ""))
    generalize hA : formatSummary
      (extractImportantSentences sentTok (joinSp (sents.drop 2))
        (extractKeywords wordTok stopW (joinSp (sents.drop 2)) 8) 4 (S "")) = alt
        at haltg ⊢
    repeat' split
    all_goals first
      | with_reducible exact haltg
      | with_reducible exact hcore

/-- C2: when the NLTK sentence tokenizer is available (`sentTok` total — the
unguarded `sent_tokenize` call of line 664 is the one modelled operation that
can raise), `summarize_text` returns a non-empty string whose last character
is `.`, `!` or `?`, for every input text and title. -/
theorem C2_summary_nonempty_punctuated (sentTok wordTok : Str → Option (List Str))
    (stopW : Option (List Str)) (text titleText : Str)
    (htok : ∀ s, (sentTok s).isSome = true) :
    summarizeText sentTok wordTok stopW text titleText ≠ [] ∧
    endsPunct (summarizeText sentTok wordTok stopW text titleText) = true :=
  summarizeText_good sentTok wordTok stopW text titleText htok

/-- Witness for C2 at a concrete article. -/
theorem C2_witness :
    summarizeText simpleTok noTok none
        (S "Markets rallied strongly today after upbeat news. Analysts expect further gains soon.")
        (S "") ≠ [] ∧
    endsPunct (summarizeText simpleTok noTok none
        (S "Markets rallied strongly today after upbeat news. Analysts expect further gains soon.")
        (S "")) = true :=
  C2_summary_nonempty_punctuated simpleTok noTok none
    (S "Markets rallied strongly today after upbeat news. Analysts expect further gains soon.")
    (S "") (fun s => rfl)

end Stock
